import Mathlib

/-!
# Verification of the `charconv_ext` 128-bit text codec

A shallow embedding of `src/include/charconv_ext/charconv_ext.hpp`:
`to_chars` / `from_chars` for 128-bit unsigned and signed integers in radix
2..36, the radix metadata tables, and the `_BitInt(N)` generalization layer.

Modelling conventions:
* `uint64_t` / `uint128_t` values are `Nat` with explicit `% 2 ^ 64` /
  `% 2 ^ 128` where the C++ arithmetic can wrap; `int128_t` values are `Int`.
* character spans `[first, last)` are `List Char`; pointers are `Nat` offsets
  from `first`.
* the output buffer of `to_chars` is a total map `Nat → Char` (offset from
  `first`), together with the list of all offsets written, so that writes
  beyond `last` (which are buffer overruns in C++) are observable.
* the single-word (≤ 64-bit) `std::to_chars` / `std::from_chars` primitives
  are external collaborators; they are modelled from their documented
  standard semantics (digits `0-9` then lowercase `a-z`, minimal output,
  value-preserving parse of the longest valid digit prefix).
* `std::ranges::copy` on trivially copyable ranges is modelled with
  memmove semantics: all source characters are read before any destination
  character is written.
* the C++ `while (true)` loops are modelled by structural recursion on a
  fuel argument; every top-level entry point passes fuel that provably
  exceeds the number of iterations the loop can make, so the fuel-exhausted
  branch is unreachable there.
-/

namespace CharconvExt

/-- `std::errc` values that occur in the library (`{}` is `ok`). -/
inductive Errc where
  | ok
  | invalid_argument
  | result_out_of_range
  | value_too_large
deriving DecidableEq, Repr

/-- Result of a `from_chars` overload with an unsigned out-parameter:
the returned pointer (as an offset from `first`), the error code, and the
value stored into the out-reference, if any (`none` = the caller's variable
is left untouched). -/
structure FCResult where
  ptr : Nat
  ec : Errc
  out : Option Nat
deriving DecidableEq, Repr

/-- Result of the `int128_t` overload of `from_chars`. -/
structure FCIResult where
  ptr : Nat
  ec : Errc
  out : Option Int
deriving DecidableEq, Repr

/-! ## Digit alphabet -/

/-- `detail::digit_value` (charconv_ext.hpp:152-164): the value of a digit
character under the codec's alphabet `0-9`, `A-Z`, `a-z`, or `-1`.
The character comparisons are written on the code points
(`'0'` = 48, `'9'` = 57, `'A'` = 65, `'Z'` = 90, `'a'` = 97, `'z'` = 122). -/
def digit_value (c : Char) : Int :=
  if 48 ≤ c.toNat ∧ c.toNat ≤ 57 then (c.toNat : Int) - 48
  else if 65 ≤ c.toNat ∧ c.toNat ≤ 90 then (c.toNat : Int) - 65 + 10
  else if 97 ≤ c.toNat ∧ c.toNat ≤ 122 then (c.toNat : Int) - 97 + 10
  else -1

/-- `detail::pattern_length` (charconv_ext.hpp:166-178): length of the
longest prefix of valid digits (value `< base`) of the span. -/
def pattern_length (s : List Char) (base : Nat) : Nat :=
  match s with
  | [] => 0
  | c :: rest =>
      if digit_value c < 0 ∨ digit_value c ≥ (base : Int) then 0
      else pattern_length rest base + 1

/-- Digit characters accepted by the standard-library `std::from_chars`
(digits `0-9` and lowercase letters only, value below the base). -/
def stdIsDigit (base : Nat) (c : Char) : Bool :=
  (48 ≤ c.toNat && c.toNat ≤ 57 && c.toNat - 48 < base) ||
  (97 ≤ c.toNat && c.toNat ≤ 122 && c.toNat - 97 + 10 < base)

/-- Numeric value of a digit character accepted by `stdIsDigit`. -/
def charVal (c : Char) : Nat :=
  if c.toNat ≤ 57 then c.toNat - 48 else c.toNat - 97 + 10

/-- Value of a digit string, most significant digit first. -/
def listVal (base : Nat) (s : List Char) : Nat :=
  s.foldl (fun acc c => acc * base + charVal c) 0

/-- Digit character (lowercase) for a value `0..35`, as produced by the
standard-library `std::to_chars`. -/
def digitChar36 (d : Nat) : Char :=
  if d < 10 then Char.ofNat (48 + d) else Char.ofNat (87 + d)

/-- Digits of `x` in the given base, least significant first (empty for 0),
as characters; recursion on a fuel bound. -/
def natDigitsRev (base : Nat) : Nat → Nat → List Char
  | 0, _ => []
  | _ + 1, 0 => []
  | fuel + 1, x => digitChar36 (x % base) :: natDigitsRev base fuel (x / base)

/-- The minimal digit string of `x` in the given base (`"0"` for 0),
exactly what the standard-library `std::to_chars` writes for `x`. -/
def stdRepr (base x : Nat) : List Char :=
  if x = 0 then ['0'] else (natDigitsRev base 130 x).reverse

/-! ## Radix metadata tables (charconv_ext.hpp:64-133) -/

/-- Loop of `detail::u64_max_representable_digits_naive`
(charconv_ext.hpp:64-80): multiply `x` by `base` while `x ≤ 2^64`, counting
multiplications (the `x == 0` early exit is unreachable for bases 2..36
since `x` stays below `2^71`). Structural recursion on fuel; 70 units are
enough for every base ≥ 2. -/
def u64_mrd_loop (base : Nat) : Nat → Nat → Nat → Nat
  | 0, _, result => result
  | fuel + 1, x, result =>
      if x ≤ 2 ^ 64 then u64_mrd_loop base fuel (x * base) (result + 1)
      else result

/-- `detail::u64_max_representable_digits` (charconv_ext.hpp:93-100, with the
compile-time table of lines 82-88 inlined): the number of digits a
`uint64_t` can always hold in the given base. -/
def u64_max_representable_digits (base : Nat) : Nat :=
  u64_mrd_loop base 70 1 0 - 1

/-- `detail::u64_pow_naive` (charconv_ext.hpp:102-110): `x^y` with wrapping
`uint64_t` multiplication. -/
def u64_pow_naive (x : Nat) : Nat → Nat
  | 0 => 1
  | y + 1 => u64_pow_naive x y * x % 2 ^ 64

/-- `detail::u64_max_power` (charconv_ext.hpp:126-133, with the table of
lines 112-119 inlined): greatest power of `base` representable in
`uint64_t`, or 0 if that power is exactly `2^64`. -/
def u64_max_power (base : Nat) : Nat :=
  u64_pow_naive base (u64_max_representable_digits base)

/-! ## Overflow-checked word arithmetic (charconv_ext.hpp:135-149) -/

/-- `detail::add_overflow`: `uint128_t` sum and overflow flag. -/
def add_overflow (x y : Nat) : Nat × Bool :=
  ((x + y) % 2 ^ 128, decide (2 ^ 128 ≤ x + y))

/-- `detail::mul_overflow`: `uint128_t` product and overflow flag. -/
def mul_overflow (x y : Nat) : Nat × Bool :=
  (x * y % 2 ^ 128, decide (2 ^ 128 ≤ x * y))

/-! ## Bit counting primitives (`<bit>`) -/

/-- Number of binary digits of `x`, truncated at `fuel` bits. -/
def bitWidthAux : Nat → Nat → Nat
  | 0, _ => 0
  | _ + 1, 0 => 0
  | fuel + 1, x => bitWidthAux fuel (x / 2) + 1

/-- Number of binary digits of `x` (0 for 0); `x` is a `uint64_t` or smaller
in every use, so 128 fuel bits are more than enough. -/
def bitWidth (x : Nat) : Nat := bitWidthAux 128 x

/-- `std::countl_zero` on `uint64_t`. -/
def countl_zero_u64 (x : Nat) : Nat := 64 - bitWidth x

/-- `std::countr_zero` on `uint64_t` (64 for 0). -/
def countr_zero_u64 (x : Nat) : Nat :=
  if x = 0 then 64 else bitWidth (x &&& (2 ^ 64 - x)) - 1

/-! ## The standard-library single-word conversions (external collaborators,
modelled from their standard semantics) -/

/-- Result of a modelled `std::from_chars` call on a word type:
pointer offset into the chunk, error code, and the value that ends up in the
caller's (zero-initialized) variable: the parsed value on success, `0`
otherwise (`std::from_chars` stores only on success). -/
structure StdFCResult where
  ptr : Nat
  ec : Errc
  val : Nat
deriving DecidableEq, Repr

/-- `std::from_chars` for an unsigned `width`-bit integer: parse the longest
prefix of valid digits; empty → `invalid_argument` at the start; a value
not below `2^width` → `result_out_of_range` with the pointer at the end of
the digit run. -/
def std_from_chars_uint (width : Nat) (s : List Char) (base : Nat) :
    StdFCResult :=
  let run := s.takeWhile (stdIsDigit base)
  if run.length = 0 then ⟨0, .invalid_argument, 0⟩
  else if listVal base run < 2 ^ width then ⟨run.length, .ok, listVal base run⟩
  else ⟨run.length, .result_out_of_range, 0⟩

/-- Result of the modelled `std::from_chars` for a signed word. -/
structure StdFCIResult where
  ptr : Nat
  ec : Errc
  val : Int
deriving DecidableEq, Repr

/-- `std::from_chars` for a signed `width`-bit integer: an optional `-`
followed by the longest run of valid digits; range is
`[-2^(width-1), 2^(width-1) - 1]`. -/
def std_from_chars_int (width : Nat) (s : List Char) (base : Nat) :
    StdFCIResult :=
  let neg := s.head? = some '-'
  let body := if neg then s.drop 1 else s
  let run := body.takeWhile (stdIsDigit base)
  let sgn : Nat := if neg then 1 else 0
  if run.length = 0 then ⟨0, .invalid_argument, 0⟩
  else
    let mag := listVal base run
    let v : Int := if neg then -(mag : Int) else (mag : Int)
    if -(2 ^ (width - 1) : Int) ≤ v ∧ v < 2 ^ (width - 1) then
      ⟨sgn + run.length, .ok, v⟩
    else ⟨sgn + run.length, .result_out_of_range, 0⟩

/-- State produced by a formatting call: the buffer contents (a total map
from offsets), the list of all offsets written during the call, the
returned pointer (offset), and the error code. -/
structure TCResult where
  mem : Nat → Char
  writes : List Nat
  ptr : Nat
  ec : Errc

/-- Write the characters `cs` at consecutive offsets starting at `pos`. -/
def writeList (mem : Nat → Char) (pos : Nat) (cs : List Char) : Nat → Char :=
  fun j => if pos ≤ j ∧ j < pos + cs.length then cs.getD (j - pos) ' ' else mem j

/-- Read `n` characters starting at offset `pos`. -/
def readList (mem : Nat → Char) (pos n : Nat) : List Char :=
  (List.range n).map fun i => mem (pos + i)

/-- `std::to_chars` for `uint64_t` writing into `[pos, space)`: writes the
minimal digit string if it fits, otherwise reports `value_too_large` with
the pointer at `last` and the buffer unchanged. -/
def std_to_chars_u64 (mem : Nat → Char) (pos space : Nat) (v base : Nat) :
    TCResult :=
  let cs := stdRepr base v
  if pos + cs.length ≤ space then
    ⟨writeList mem pos cs, (List.range cs.length).map (pos + ·),
      pos + cs.length, .ok⟩
  else ⟨mem, [], space, .value_too_large⟩

/-- `std::to_chars` for `int64_t`: minus sign followed by the digits of the
magnitude. -/
def std_to_chars_i64 (mem : Nat → Char) (pos space : Nat) (v : Int)
    (base : Nat) : TCResult :=
  let cs := (if v < 0 then ['-'] else []) ++ stdRepr base v.natAbs
  if pos + cs.length ≤ space then
    ⟨writeList mem pos cs, (List.range cs.length).map (pos + ·),
      pos + cs.length, .ok⟩
  else ⟨mem, [], space, .value_too_large⟩

/-! ## `from_chars` for `uint128_t` (charconv_ext.hpp:187-271) -/

/-- The power-of-two-base loop of `from_chars(uint128_t&)`
(charconv_ext.hpp:209-241). `s` is the whole span, `current_last` the offset
one past the chunk under consideration; the chunk is the up-to-`maxD`
characters before `current_last`. The fuel-exhausted result is unreachable:
every caller passes more fuel than there are characters, and each iteration
consumes at least one character. -/
def fc_pow2_loop (s : List Char) (base initial_last maxD bits : Nat) :
    Nat → Nat → Nat → Nat → FCResult
  | 0, _, _, _ => ⟨0, .value_too_large, none⟩
  | fuel + 1, current_last, result, shift =>
      let lower_length := min current_last maxD
      let chunk := (s.take current_last).drop (current_last - lower_length)
      let pr := std_from_chars_uint 64 chunk base
      if pr.ec ≠ .ok then
        ⟨current_last - lower_length + pr.ptr, pr.ec, none⟩
      else
        let digits := pr.val
        let added_digits := 64 - countl_zero_u64 digits
        if 128 < shift + added_digits then
          ⟨initial_last, .result_out_of_range, none⟩
        else
          let result := result ||| (digits <<< shift) % 2 ^ 128
          let shift := shift + bits
          if current_last ≤ maxD then ⟨initial_last, .ok, some result⟩
          else
            fc_pow2_loop s base initial_last maxD bits fuel
              (current_last - lower_length) result shift

/-- The arbitrary-base loop of `from_chars(uint128_t&)`
(charconv_ext.hpp:243-270). `factor` is a `uint128_t`; note the unchecked
`factor *= max_pow` (wrapping modulo `2^128`). -/
def fc_arb_loop (s : List Char) (base initial_last maxD max_pow : Nat) :
    Nat → Nat → Nat → Nat → FCResult
  | 0, _, _, _ => ⟨0, .value_too_large, none⟩
  | fuel + 1, current_last, result, factor =>
      let lower_length := min current_last maxD
      let chunk := (s.take current_last).drop (current_last - lower_length)
      let pr := std_from_chars_uint 64 chunk base
      let m := mul_overflow factor pr.val
      if m.2 then ⟨initial_last, .result_out_of_range, none⟩
      else
        let a := add_overflow result m.1
        if a.2 then ⟨initial_last, .result_out_of_range, none⟩
        else if current_last ≤ maxD ∨ pr.ec ≠ .ok then
          ⟨initial_last, pr.ec, some a.1⟩
        else
          fc_arb_loop s base initial_last maxD max_pow fuel
            (current_last - lower_length) a.1 (factor * max_pow % 2 ^ 128)

/-- `from_chars` for `uint128_t` (charconv_ext.hpp:187-271). -/
def from_chars_u128 (s : List Char) (base : Nat) : FCResult :=
  if s.length = 0 then ⟨s.length, .invalid_argument, none⟩
  else
    let initial_last := pattern_length s base
    let max_pow := u64_max_power base
    let maxD := u64_max_representable_digits base
    if base &&& (base - 1) = 0 then
      fc_pow2_loop s base initial_last maxD (countr_zero_u64 max_pow)
        (s.length + 1) initial_last 0 0
    else
      fc_arb_loop s base initial_last maxD max_pow
        (s.length + 1) initial_last 0 1

/-- The value of a `uint128_t` bit pattern read as `int128_t`
(two's complement). -/
def toInt128 (u : Nat) : Int :=
  if u < 2 ^ 127 then (u : Int) else (u : Int) - 2 ^ 128

/-- `from_chars` for `int128_t` (charconv_ext.hpp:273-307). The locals
`uint128_t x {}` / `int64_t x {}` are zero-initialized, so a failed inner
parse leaves them 0; `out` is assigned exactly where the C++ assigns it. -/
def from_chars_i128 (s : List Char) (base : Nat) : FCIResult :=
  match s with
  | [] => ⟨0, .invalid_argument, none⟩
  | c :: _ =>
    if c ≠ '-' then
      let r := from_chars_u128 s base
      let x := r.out.getD 0
      if x >>> 127 ≠ 0 then ⟨r.ptr, .result_out_of_range, none⟩
      else ⟨r.ptr, r.ec, some (toInt128 x)⟩
    else
      let maxD := u64_max_representable_digits base
      if s.length + 1 ≤ maxD then
        let r := std_from_chars_int 64 s base
        ⟨r.ptr, r.ec, some r.val⟩
      else
        let r := from_chars_u128 (s.drop 1) base
        let x := r.out.getD 0
        if x > 2 ^ 127 then ⟨1 + r.ptr, .result_out_of_range, none⟩
        else ⟨1 + r.ptr, r.ec, some (toInt128 ((2 ^ 128 - x) % 2 ^ 128))⟩

/-! ## `to_chars` for `uint128_t` (charconv_ext.hpp:309-413) -/

/-- Memmove-semantics copy of the `n` characters at `src` to `dst`:
all sources are read before anything is written (`std::ranges::copy` on
`char` ranges; charconv_ext.hpp:371 and 405 use it with `dst` inside the
source range, which real implementations lower to `memmove`). -/
def memCopy (mem : Nat → Char) (src dst n : Nat) : Nat → Char :=
  writeList mem dst (readList mem src n)

/-- Offsets `[pos, pos + n)`. -/
def writeSpan (pos n : Nat) : List Nat := (List.range n).map (pos + ·)

/-- Fill `n` characters at `pos` with `'0'`
(`std::ranges::fill_n`, charconv_ext.hpp:372 and 408). -/
def memFillZero (mem : Nat → Char) (pos n : Nat) : Nat → Char :=
  writeList mem pos (List.replicate n '0')

/-- One iteration step of the power-of-two-base formatting loop
(charconv_ext.hpp:362-385), recursing while `0 < shift`. `first_digit` is
true while nothing has been emitted yet. The fuel-exhausted branch is
unreachable: the loop runs exactly `(128 - leading_bits) / bits` ≤ 2 times.
-/
def tc_pow2_loop (x base space maxD bits mask : Nat) :
    Nat → (Nat → Char) → List Nat → Nat → Nat → Bool → TCResult
  | 0, mem, ws, _, _, _ => ⟨mem, ws, 0, .value_too_large⟩
  | fuel + 1, mem, ws, current_first, shift, first_digit =>
      let piece := (x >>> shift) &&& mask
      let pr := std_to_chars_u64 mem current_first space piece base
      if pr.ec ≠ .ok then ⟨pr.mem, ws ++ pr.writes, pr.ptr, pr.ec⟩
      else
        let zero_pad := maxD - (pr.ptr - current_first)
        let st :=
          if ¬first_digit ∧ zero_pad ≠ 0 then
            let mem2 := memCopy pr.mem current_first (current_first + zero_pad)
              (pr.ptr - current_first)
            let mem3 := memFillZero mem2 current_first zero_pad
            (mem3,
              ws ++ pr.writes
                ++ writeSpan (current_first + zero_pad) (pr.ptr - current_first)
                ++ writeSpan current_first zero_pad,
              current_first + maxD)
          else (pr.mem, ws ++ pr.writes, pr.ptr)
        if shift = 0 then ⟨st.1, st.2.1, st.2.2, .ok⟩
        else
          tc_pow2_loop x base space maxD bits mask fuel
            st.1 st.2.1 st.2.2 (shift - bits) false

/-- `to_chars` for `uint128_t` (charconv_ext.hpp:309-413), writing into
offsets `[pos, space)` of the buffer. The arbitrary-base branch recurses on
`x / max_pow`; fuel bounds that recursion (depth ≤ 3 for any 128-bit value,
every caller passes ample fuel). -/
def to_chars_u128 (base : Nat) :
    Nat → (Nat → Char) → Nat → Nat → Nat → TCResult
  | 0, mem, _, space, _ => ⟨mem, [], space, .value_too_large⟩
  | fuel + 1, mem, pos, space, x =>
      if x ≤ 2 ^ 64 - 1 then std_to_chars_u64 mem pos space x base
      else if pos = space then ⟨mem, [], space, .value_too_large⟩
      else
        let max_pow := u64_max_power base
        let maxD := u64_max_representable_digits base
        if base &&& (base - 1) = 0 then
          let bits := countr_zero_u64 max_pow
          let leading_bits := 128 % bits
          let head := (x >>> (128 - leading_bits)) &&& (2 ^ leading_bits - 1)
          let mask := ((if bits = 64 then 0 else 2 ^ bits) + 2 ^ 64 - 1) % 2 ^ 64
          if leading_bits ≠ 0 ∧ head ≠ 0 then
            let hr := std_to_chars_u64 mem pos space head base
            if hr.ec ≠ .ok then hr
            else
              let r := tc_pow2_loop x base space maxD bits mask 4
                hr.mem [] hr.ptr (128 - leading_bits - bits) false
              ⟨r.mem, hr.writes ++ r.writes, r.ptr, r.ec⟩
          else
            tc_pow2_loop x base space maxD bits mask 4
              mem [] pos (128 - leading_bits - bits) true
        else
          let upper := to_chars_u128 base fuel mem pos space (x / max_pow)
          if upper.ec ≠ .ok then upper
          else
            let lower := std_to_chars_u64 upper.mem upper.ptr space
              (x % max_pow) base
            if lower.ec ≠ .ok then
              ⟨lower.mem, upper.writes ++ lower.writes, lower.ptr, lower.ec⟩
            else
              let lower_length := lower.ptr - upper.ptr
              let result_end := upper.ptr + maxD
              let mem2 := memCopy lower.mem upper.ptr
                (result_end - lower_length) lower_length
              let mem3 := memFillZero mem2 upper.ptr (maxD - lower_length)
              ⟨mem3,
                upper.writes ++ lower.writes
                  ++ writeSpan (result_end - lower_length) lower_length
                  ++ writeSpan upper.ptr (maxD - lower_length),
                result_end, .ok⟩

/-! ## Bit-width generalization layer (charconv_ext.hpp:444-571) -/

/-- Width of `detail::uint_leastN_t<N>` / `detail::int_leastN_t<N>`
(charconv_ext.hpp:455-499): the smallest carrier width holding `N` bits. -/
def uint_least_width (N : Nat) : Nat :=
  if N ≤ 8 then 8
  else if N ≤ 16 then 16
  else if N ≤ 32 then 32
  else if N ≤ 64 then 64
  else 128

/-- Wrap an integer value into `N`-bit two's complement
(the `static_cast<bit_int<N>>` conversion). -/
def toIntN (N : Nat) (v : Int) : Int :=
  let u := v % 2 ^ N
  if u < 2 ^ (N - 1) then u else u - 2 ^ N

/-- `from_chars` for `bit_uint<N>` (charconv_ext.hpp:550-571): parse into
the carrier (the standard library for widths ≤ 64, this library for 128),
narrow with `static_cast`, and override a successful result with
`result_out_of_range` when narrowing does not round-trip. The caller's
`x` is assigned the narrowed value unconditionally; the carrier local
`value {}` is zero-initialized. -/
def from_chars_bit_uint (N : Nat) (s : List Char) (base : Nat) : FCResult :=
  let w := uint_least_width N
  let r : FCResult :=
    if w = 128 then from_chars_u128 s base
    else
      let q := std_from_chars_uint w s base
      ⟨q.ptr, q.ec, if q.ec = .ok then some q.val else none⟩
  let value := r.out.getD 0
  let x := value % 2 ^ N
  if r.ec = .ok ∧ x ≠ value then ⟨r.ptr, .result_out_of_range, some x⟩
  else ⟨r.ptr, r.ec, some x⟩

/-- `from_chars` for `bit_int<N>` (charconv_ext.hpp:529-548). -/
def from_chars_bit_int (N : Nat) (s : List Char) (base : Nat) : FCIResult :=
  let w := uint_least_width N
  let r : FCIResult :=
    if w = 128 then from_chars_i128 s base
    else
      let q := std_from_chars_int w s base
      ⟨q.ptr, q.ec, if q.ec = .ok then some q.val else none⟩
  let value := r.out.getD 0
  let x := toIntN N value
  if r.ec = .ok ∧ x ≠ value then ⟨r.ptr, .result_out_of_range, some x⟩
  else ⟨r.ptr, r.ec, some x⟩

/-- `to_chars` for `int128_t` (charconv_ext.hpp:415-434). -/
def to_chars_i128 (mem : Nat → Char) (pos space : Nat) (x : Int)
    (base : Nat) : TCResult :=
  if 0 ≤ x then to_chars_u128 base 130 mem pos space x.toNat
  else if -(2 ^ 63) ≤ x then std_to_chars_i64 mem pos space x base
  else if space - pos < 2 then ⟨mem, [], space, .value_too_large⟩
  else
    let r := to_chars_u128 base 130 (writeList mem pos ['-']) (pos + 1) space
      (-x).toNat
    ⟨r.mem, pos :: r.writes, r.ptr, r.ec⟩

/-! ## Lemmas: digit strings and their values -/

theorem listVal_foldl (b acc : Nat) (s : List Char) :
    s.foldl (fun a c => a * b + charVal c) acc =
      acc * b ^ s.length + listVal b s := by
  induction s generalizing acc with
  | nil => simp [listVal]
  | cons c t ih =>
      have hc : listVal b (c :: t) = charVal c * b ^ t.length + listVal b t := by
        show List.foldl _ (0 * b + charVal c) t = _
        rw [ih]; ring_nf
      simp only [List.foldl_cons, List.length_cons, hc]
      rw [ih]; ring

theorem listVal_cons (b : Nat) (c : Char) (t : List Char) :
    listVal b (c :: t) = charVal c * b ^ t.length + listVal b t := by
  show List.foldl _ (0 * b + charVal c) t = _
  rw [listVal_foldl]; ring_nf

theorem listVal_append (b : Nat) (u v : List Char) :
    listVal b (u ++ v) = listVal b u * b ^ v.length + listVal b v := by
  show List.foldl _ _ (u ++ v) = _
  rw [List.foldl_append, listVal_foldl]; rfl

theorem listVal_lt_pow {b : Nat} {s : List Char}
    (h : ∀ c ∈ s, charVal c < b) : listVal b s < b ^ s.length := by
  induction s with
  | nil => simp [listVal]
  | cons c t ih =>
      rw [listVal_cons]
      have h1 : charVal c < b := h c (List.mem_cons_self c t)
      have h2 : listVal b t < b ^ t.length := ih fun c hc => h c (List.mem_cons_of_mem _ hc)
      calc charVal c * b ^ t.length + listVal b t
          < charVal c * b ^ t.length + b ^ t.length := by omega
        _ = (charVal c + 1) * b ^ t.length := by ring
        _ ≤ b * b ^ t.length := Nat.mul_le_mul_right _ h1
        _ = b ^ (c :: t).length := by rw [List.length_cons, pow_succ]; ring

theorem charVal_zero : charVal '0' = 0 := by decide

theorem listVal_replicate_zero (b n : Nat) :
    listVal b (List.replicate n '0') = 0 := by
  induction n with
  | zero => rfl
  | succ k ih => rw [List.replicate_succ, listVal_cons, ih, charVal_zero]; ring

theorem listVal_replicate_zero_append (b n : Nat) (s : List Char) :
    listVal b (List.replicate n '0' ++ s) = listVal b s := by
  rw [listVal_append, listVal_replicate_zero]; ring

/-! ## Lemmas: digit characters -/

theorem charVal_digitChar36 : ∀ d, d < 36 → charVal (digitChar36 d) = d := by
  decide

theorem stdIsDigit_digitChar36 :
    ∀ b, b ≤ 36 → ∀ d, d < b → stdIsDigit b (digitChar36 d) = true := by
  decide

theorem digitChar36_ne_zero : ∀ d, d < 36 → 1 ≤ d → digitChar36 d ≠ '0' := by
  decide

theorem digit_value_of_stdIsDigit :
    ∀ b, b ≤ 36 → ∀ c, stdIsDigit b c = true →
      0 ≤ digit_value c ∧ digit_value c < (b : Int) := by
  intro b hb c hc
  simp only [stdIsDigit, Bool.or_eq_true, Bool.and_eq_true, decide_eq_true_eq] at hc
  simp only [digit_value]
  rcases hc with ⟨⟨h1, h2⟩, h3⟩ | ⟨⟨h1, h2⟩, h3⟩ <;> split_ifs <;> omega

theorem charVal_lt_of_stdIsDigit {b : Nat} {c : Char}
    (hc : stdIsDigit b c = true) : charVal c < b := by
  simp only [stdIsDigit, Bool.or_eq_true, Bool.and_eq_true, decide_eq_true_eq] at hc
  simp only [charVal]
  rcases hc with ⟨⟨h1, h2⟩, h3⟩ | ⟨⟨h1, h2⟩, h3⟩ <;> split <;> omega

/-! ## Lemmas: base table facts (finite checks over bases 2..36) -/

theorem mrd_pow_le :
    ∀ b, 2 ≤ b → b ≤ 36 →
      b ^ u64_max_representable_digits b ≤ 2 ^ 64 ∧
      2 ^ 64 < b ^ (u64_max_representable_digits b + 1) ∧
      2 ≤ u64_max_representable_digits b := by
  decide

theorem max_power_facts :
    ∀ b, 2 ≤ b → b ≤ 36 → b &&& (b - 1) ≠ 0 →
      u64_max_power b = b ^ u64_max_representable_digits b ∧
      2 ^ 58 < u64_max_power b ∧ u64_max_power b < 2 ^ 64 := by
  decide

theorem pow2_base_cases :
    ∀ b, 2 ≤ b → b ≤ 36 → b &&& (b - 1) = 0 →
      b = 2 ∨ b = 4 ∨ b = 8 ∨ b = 16 ∨ b = 32 := by
  decide

/-! ## Lemmas: the modelled standard-library parse -/

theorem takeWhile_length_le (p : Char → Bool) (l : List Char) :
    (l.takeWhile p).length ≤ l.length := by
  induction l with
  | nil => simp
  | cons c t ih =>
      rw [List.takeWhile_cons]
      split <;> simp only [List.length_cons, List.length_nil] <;> omega

/-- On a non-empty chunk of valid digits whose value is representable,
the standard parse consumes everything and is exact. -/
theorem std_uint_of_valid {b W : Nat} {s : List Char} (hne : s.length ≠ 0)
    (hall : ∀ c ∈ s, stdIsDigit b c = true) (hlt : listVal b s < 2 ^ W) :
    std_from_chars_uint W s b = ⟨s.length, .ok, listVal b s⟩ := by
  unfold std_from_chars_uint
  rw [List.takeWhile_eq_self_iff.mpr hall]
  simp only [hne, if_false, hlt, if_true]

/-- A chunk of at most `u64_max_representable_digits b` characters can
never make the 64-bit standard parse overflow. -/
theorem std_uint64_chunk_ec {b : Nat} (h2 : 2 ≤ b) (h36 : b ≤ 36)
    {s : List Char} (hlen : s.length ≤ u64_max_representable_digits b) :
    (std_from_chars_uint 64 s b).ec = .ok ∨
      (std_from_chars_uint 64 s b).ec = .invalid_argument := by
  have hrun : listVal b (s.takeWhile (stdIsDigit b)) < 2 ^ 64 := by
    have h1 : listVal b (s.takeWhile (stdIsDigit b)) <
        b ^ (s.takeWhile (stdIsDigit b)).length :=
      listVal_lt_pow fun c hc =>
        charVal_lt_of_stdIsDigit (List.mem_takeWhile_imp hc)
    have h2' : b ^ (s.takeWhile (stdIsDigit b)).length ≤
        b ^ u64_max_representable_digits b :=
      Nat.pow_le_pow_right (by omega)
        (le_trans (takeWhile_length_le _ _) hlen)
    have h3 := (mrd_pow_le b h2 h36).1
    omega
  simp only [std_from_chars_uint]
  split <;> simp_all

/-- Length of the chunk sliced out by the `from_chars` loops. -/
theorem chunk_length_le (s : List Char) (cl maxD : Nat) :
    ((s.take cl).drop (cl - min cl maxD)).length ≤ maxD := by
  simp only [List.length_drop, List.length_take]
  omega

/-! ## Lemmas: which exits of the parse loops assign the out-parameter -/

theorem fc_pow2_loop_out (s : List Char) (b il maxD bits : Nat) :
    ∀ fuel cl res sh,
      (fc_pow2_loop s b il maxD bits fuel cl res sh).out.isSome = true ↔
        (fc_pow2_loop s b il maxD bits fuel cl res sh).ec = .ok := by
  intro fuel
  induction fuel with
  | zero => intro cl res sh; simp [fc_pow2_loop]
  | succ n ih =>
      intro cl res sh
      simp only [fc_pow2_loop]
      split
      · rename_i hec; simp [hec]
      · split
        · simp
        · split
          · simp
          · exact ih _ _ _

theorem fc_arb_loop_out {b : Nat} (h2 : 2 ≤ b) (h36 : b ≤ 36)
    (s : List Char) (il max_pow : Nat) :
    ∀ fuel cl res fac,
      (fc_arb_loop s b il (u64_max_representable_digits b) max_pow
          fuel cl res fac).out.isSome = true ↔
        ((fc_arb_loop s b il (u64_max_representable_digits b) max_pow
            fuel cl res fac).ec = .ok ∨
          (fc_arb_loop s b il (u64_max_representable_digits b) max_pow
            fuel cl res fac).ec = .invalid_argument) := by
  intro fuel
  induction fuel with
  | zero => intro cl res fac; simp [fc_arb_loop]
  | succ n ih =>
      intro cl res fac
      simp only [fc_arb_loop]
      split
      · simp
      · split
        · simp
        · split
          · simp only [Option.isSome_some, true_iff]
            exact std_uint64_chunk_ec h2 h36
              (chunk_length_le s cl (u64_max_representable_digits b))
          · exact ih _ _ _

/-! ## Lemmas: bit width -/

theorem bitWidthAux_zero : ∀ fuel, bitWidthAux fuel 0 = 0 := by
  intro fuel
  cases fuel <;> rfl

theorem bitWidthAux_succ (n m : Nat) :
    bitWidthAux (n + 1) (m + 1) = bitWidthAux n ((m + 1) / 2) + 1 := rfl

theorem bitWidthAux_le : ∀ fuel x, bitWidthAux fuel x ≤ fuel := by
  intro fuel
  induction fuel with
  | zero => intro x; simp [bitWidthAux]
  | succ n ih =>
      intro x
      match x with
      | 0 => simp [bitWidthAux_zero]
      | m + 1 =>
          rw [bitWidthAux_succ]
          exact Nat.succ_le_succ (ih _)

theorem lt_two_pow_bitWidthAux :
    ∀ fuel x, x < 2 ^ fuel → x < 2 ^ bitWidthAux fuel x := by
  intro fuel
  induction fuel with
  | zero => intro x h; simpa [bitWidthAux] using h
  | succ n ih =>
      intro x h
      match x with
      | 0 => simp [bitWidthAux_zero]
      | m + 1 =>
          rw [bitWidthAux_succ]
          have hp : (2:Nat) ^ (n + 1) = 2 * 2 ^ n := by rw [pow_succ]; ring
          have hd : (m + 1) / 2 < 2 ^ n := by omega
          have hih := ih _ hd
          have hq : (2:Nat) ^ (bitWidthAux n ((m + 1) / 2) + 1) =
              2 * 2 ^ bitWidthAux n ((m + 1) / 2) := by rw [pow_succ]; ring
          omega

theorem two_pow_pred_le_bitWidthAux :
    ∀ fuel x, x ≠ 0 → 2 ^ (bitWidthAux fuel x - 1) ≤ x := by
  intro fuel
  induction fuel with
  | zero => intro x hx; simp [bitWidthAux]; omega
  | succ n ih =>
      intro x hx
      match x with
      | m + 1 =>
          rw [bitWidthAux_succ]
          rcases Nat.eq_zero_or_pos ((m + 1) / 2) with h0 | hpos
          · rw [h0, bitWidthAux_zero]
            simp
          · have hih := ih ((m + 1) / 2) (by omega)
            rcases Nat.eq_zero_or_pos (bitWidthAux n ((m + 1) / 2)) with hb | hb
            · rw [hb]
              simp
            · have hq : (2:Nat) ^ (bitWidthAux n ((m + 1) / 2) + 1 - 1) =
                  2 * 2 ^ (bitWidthAux n ((m + 1) / 2) - 1) := by
                rw [show bitWidthAux n ((m + 1) / 2) + 1 - 1 =
                  (bitWidthAux n ((m + 1) / 2) - 1) + 1 by omega, pow_succ]
                ring
              omega

theorem bitWidth_le_of_lt {x k : Nat} (h : x < 2 ^ k) :
    bitWidth x ≤ k := by
  rcases Nat.eq_zero_or_pos x with h0 | hpos
  · subst h0; simp [bitWidth, bitWidthAux_zero]
  · have h1 := two_pow_pred_le_bitWidthAux 128 x (by omega)
    have h2 : 2 ^ (bitWidth x - 1) < 2 ^ k := lt_of_le_of_lt h1 h
    have h3 : bitWidth x - 1 < k :=
      (Nat.pow_lt_pow_iff_right (by omega)).mp h2
    have h4 : bitWidth x ≤ 128 := bitWidthAux_le 128 x
    omega

theorem lt_two_pow_bitWidth {x : Nat} (h : x < 2 ^ 128) :
    x < 2 ^ bitWidth x :=
  lt_two_pow_bitWidthAux 128 x h

/-- The `added_digits` computation of the parse loop
(`64 - countl_zero(digits)`) is the bit width. -/
theorem added_digits_eq_bitWidth {x : Nat} (h : x < 2 ^ 64) :
    64 - countl_zero_u64 x = bitWidth x := by
  have h1 : bitWidth x ≤ 64 := bitWidth_le_of_lt h
  simp only [countl_zero_u64]
  omega

/-! ## Lemmas: chunk slicing -/

theorem chunk_length {s : List Char} {cl L : Nat} (hL : L ≤ cl)
    (hcl : cl ≤ s.length) : ((s.take cl).drop (cl - L)).length = L := by
  simp only [List.length_drop, List.length_take]
  omega

theorem chunk_subset {s : List Char} {cl m : Nat} {c : Char}
    (hc : c ∈ (s.take cl).drop m) : c ∈ s :=
  List.mem_of_mem_take (List.mem_of_mem_drop hc)

theorem drop_sub_eq_chunk_append {s : List Char} {cl L : Nat} (hL : L ≤ cl)
    (hcl : cl ≤ s.length) :
    s.drop (cl - L) = (s.take cl).drop (cl - L) ++ s.drop cl := by
  conv_lhs => rw [← List.take_append_drop cl s]
  rw [List.drop_append_eq_append_drop]
  have h1 : (s.take cl).length = cl := by
    simp only [List.length_take]; omega
  rw [h1, show cl - L - cl = 0 by omega, List.drop_zero]

theorem listVal_drop_le (b : Nat) (s : List Char) (m : Nat) :
    listVal b (s.drop m) ≤ listVal b s := by
  conv_rhs => rw [← List.take_append_drop m s]
  rw [listVal_append]
  omega

/-- Value decomposition at a chunk boundary: dropping to the start of the
chunk is the chunk's value at its positional weight plus the suffix. -/
theorem listVal_drop_step {s : List Char} {cl L : Nat} (b : Nat)
    (hL : L ≤ cl) (hcl : cl ≤ s.length) :
    listVal b (s.drop (cl - L)) =
      listVal b ((s.take cl).drop (cl - L)) * b ^ (s.length - cl) +
        listVal b (s.drop cl) := by
  rw [drop_sub_eq_chunk_append hL hcl, listVal_append, List.length_drop]

/-! ## Correctness of the power-of-two parse loop -/

/-- On a span of valid lowercase digits whose value fits 128 bits and whose
length fits in three chunks, the power-of-two loop reconstructs the exact
value, consuming everything. `k` counts the chunks already consumed. -/
theorem fc_pow2_loop_correct {b g maxD bits : Nat} {s : List Char}
    (h2 : 2 ≤ b) (h36 : b ≤ 36)
    (hg : b = 2 ^ g)
    (hmaxD : maxD = u64_max_representable_digits b)
    (hbits : bits = g * maxD)
    (hall : ∀ c ∈ s, stdIsDigit b c = true)
    (hval : listVal b s < 2 ^ 128)
    (hlen : s.length ≤ 3 * maxD) :
    ∀ fuel k cl, cl + k * maxD = s.length → k ≤ 2 → 1 ≤ cl → cl ≤ fuel →
      fc_pow2_loop s b s.length maxD bits fuel cl
          (listVal b (s.drop cl)) (k * bits) =
        ⟨s.length, .ok, some (listVal b s)⟩ := by
  have hmaxD2 : 2 ≤ maxD := by
    rw [hmaxD]; exact (mrd_pow_le b h2 h36).2.2
  have hpow_le : b ^ maxD ≤ 2 ^ 64 := by
    rw [hmaxD]; exact (mrd_pow_le b h2 h36).1
  have hgmd : g * maxD ≤ 64 := by
    have h1 := hpow_le
    rw [hg, ← pow_mul] at h1
    exact (Nat.pow_le_pow_iff_right (by omega)).mp h1
  have hb1 : 1 ≤ b := by omega
  intro fuel
  induction fuel with
  | zero => intro k cl h1 hk2 h3 h4; omega
  | succ n ih =>
      intro k cl hksum hk2 hcl1 hclf
      have hcln : cl ≤ s.length := by omega
      -- facts about the chunk
      have hLle : min cl maxD ≤ cl := Nat.min_le_left _ _
      have hLmaxD : min cl maxD ≤ maxD := Nat.min_le_right _ _
      have hL1 : 1 ≤ min cl maxD := by omega
      have hchlen : ((s.take cl).drop (cl - min cl maxD)).length =
          min cl maxD := chunk_length hLle hcln
      have hchall : ∀ c ∈ (s.take cl).drop (cl - min cl maxD),
          stdIsDigit b c = true := fun c hc => hall c (chunk_subset hc)
      have hcv64 : listVal b ((s.take cl).drop (cl - min cl maxD)) < 2 ^ 64 := by
        have hlt := listVal_lt_pow fun c hc =>
          charVal_lt_of_stdIsDigit (hchall c hc)
        rw [hchlen] at hlt
        exact lt_of_lt_of_le hlt
          (le_trans (Nat.pow_le_pow_right hb1 hLmaxD) hpow_le)
      have hstd : std_from_chars_uint 64
          ((s.take cl).drop (cl - min cl maxD)) b =
          ⟨min cl maxD, .ok, listVal b ((s.take cl).drop (cl - min cl maxD))⟩ := by
        rw [std_uint_of_valid (by omega) hchall hcv64, hchlen]
      -- positional weight of the chunk
      have hnk : s.length - cl = k * maxD := by omega
      have hweight : b ^ (s.length - cl) = 2 ^ (k * bits) := by
        rw [hnk, hg, ← pow_mul]
        congr 1
        rw [hbits]; ring
      -- the chunk's weighted value is bounded by the total value
      have hstep := listVal_drop_step (s := s) b hLle hcln
      have hdrople := listVal_drop_le b s (cl - min cl maxD)
      have hchunk_le : listVal b ((s.take cl).drop (cl - min cl maxD)) *
          2 ^ (k * bits) ≤ listVal b s := by
        rw [← hweight]
        omega
      -- the overflow test never fires
      have hover : ¬(128 < k * bits +
          (64 - countl_zero_u64
            (listVal b ((s.take cl).drop (cl - min cl maxD))))) := by
        rw [added_digits_eq_bitWidth hcv64]
        rcases Nat.eq_zero_or_pos
            (listVal b ((s.take cl).drop (cl - min cl maxD))) with hz | hpos
        · rw [hz]
          have hb0 : bitWidth 0 = 0 := bitWidthAux_zero 128
          rw [hb0]
          have hkb : k * bits ≤ 2 * 64 := by
            rw [hbits]
            exact Nat.mul_le_mul hk2 hgmd
          omega
        · have hbw := two_pow_pred_le_bitWidthAux 128
            (listVal b ((s.take cl).drop (cl - min cl maxD))) (by omega)
          have hle2 : 2 ^ (bitWidth
              (listVal b ((s.take cl).drop (cl - min cl maxD))) - 1) *
              2 ^ (k * bits) < 2 ^ 128 := by
            calc 2 ^ (bitWidth _ - 1) * 2 ^ (k * bits)
                ≤ listVal b ((s.take cl).drop (cl - min cl maxD)) *
                  2 ^ (k * bits) := Nat.mul_le_mul_right _ hbw
              _ ≤ listVal b s := hchunk_le
              _ < 2 ^ 128 := hval
          rw [← pow_add] at hle2
          have h128 := (Nat.pow_lt_pow_iff_right
            (a := 2) (by omega)).mp hle2
          have hbwpos : 1 ≤ bitWidth
              (listVal b ((s.take cl).drop (cl - min cl maxD))) := by
            by_contra hcon
            have : bitWidth (listVal b ((s.take cl).drop (cl - min cl maxD)))
                = 0 := by omega
            have hlt2 := lt_two_pow_bitWidth
              (lt_trans hcv64 (by norm_num : (2:Nat) ^ 64 < 2 ^ 128))
            rw [this, pow_zero] at hlt2
            omega
          omega
      -- the accumulator update is exact
      have hshift : listVal b ((s.take cl).drop (cl - min cl maxD)) <<<
          (k * bits) % 2 ^ 128 =
          listVal b ((s.take cl).drop (cl - min cl maxD)) * 2 ^ (k * bits) := by
        rw [Nat.shiftLeft_eq]
        exact Nat.mod_eq_of_lt (lt_of_le_of_lt hchunk_le hval)
      have hreslt : listVal b (s.drop cl) < 2 ^ (k * bits) := by
        have hlt := listVal_lt_pow (s := s.drop cl) fun c hc =>
          charVal_lt_of_stdIsDigit (hall c (List.mem_of_mem_drop hc))
        rw [List.length_drop, hweight] at hlt
        exact hlt
      have hupdate : listVal b (s.drop cl) |||
          listVal b ((s.take cl).drop (cl - min cl maxD)) <<<
            (k * bits) % 2 ^ 128 =
          listVal b (s.drop (cl - min cl maxD)) := by
        rw [hshift, Nat.lor_comm, Nat.mul_comm,
          ← Nat.mul_add_lt_is_or hreslt, hstep, hweight]
        ring
      -- unfold one iteration
      simp only [fc_pow2_loop, hstd, ne_eq, not_true_eq_false, if_false]
      rw [if_neg hover]
      rcases le_or_lt cl maxD with hle | hgt
      · rw [if_pos hle]
        have hLcl : min cl maxD = cl := Nat.min_eq_left hle
        rw [hupdate, hLcl, Nat.sub_self, List.drop_zero]
      · rw [if_neg (by omega)]
        rw [hupdate]
        have hLcl : min cl maxD = maxD := Nat.min_eq_right (by omega)
        rw [hLcl]
        have hk1 : k ≤ 1 := by
          by_contra hcon
          have hk2' : k = 2 := by omega
          have h2m : k * maxD = 2 * maxD := by rw [hk2']
          omega
        have harg : k * bits + bits = (k + 1) * bits := by ring
        rw [harg]
        have hmul : (k + 1) * maxD = k * maxD + maxD := by ring
        exact ih (k + 1) (cl - maxD) (by omega) (by omega) (by omega)
          (by omega)

/-! ## Correctness of the arbitrary-base parse loop -/

/-- On a span of valid lowercase digits whose value fits 128 bits, the
arbitrary-base loop reconstructs the exact value, consuming everything;
the running factor is `b ^ (k·maxD) mod 2^128`, which has wrapped exactly
when all remaining chunks are zero. -/
theorem fc_arb_loop_correct {b maxD M : Nat} {s : List Char}
    (h2 : 2 ≤ b) (h36 : b ≤ 36)
    (hmaxD : maxD = u64_max_representable_digits b)
    (hM : M = b ^ maxD) (hM64 : M < 2 ^ 64)
    (hall : ∀ c ∈ s, stdIsDigit b c = true)
    (hval : listVal b s < 2 ^ 128) :
    ∀ fuel k cl, cl + k * maxD = s.length → 1 ≤ cl → cl ≤ fuel →
      fc_arb_loop s b s.length maxD M fuel cl
          (listVal b (s.drop cl)) (b ^ (k * maxD) % 2 ^ 128) =
        ⟨s.length, .ok, some (listVal b s)⟩ := by
  have hmaxD2 : 2 ≤ maxD := by
    rw [hmaxD]; exact (mrd_pow_le b h2 h36).2.2
  have hb1 : 1 ≤ b := by omega
  intro fuel
  induction fuel with
  | zero => intro k cl h1 h3 h4; omega
  | succ n ih =>
      intro k cl hksum hcl1 hclf
      have hcln : cl ≤ s.length := by omega
      have hLle : min cl maxD ≤ cl := Nat.min_le_left _ _
      have hLmaxD : min cl maxD ≤ maxD := Nat.min_le_right _ _
      have hL1 : 1 ≤ min cl maxD := by omega
      have hchlen : ((s.take cl).drop (cl - min cl maxD)).length =
          min cl maxD := chunk_length hLle hcln
      have hchall : ∀ c ∈ (s.take cl).drop (cl - min cl maxD),
          stdIsDigit b c = true := fun c hc => hall c (chunk_subset hc)
      have hcv64 : listVal b ((s.take cl).drop (cl - min cl maxD)) < 2 ^ 64 := by
        have hlt := listVal_lt_pow fun c hc =>
          charVal_lt_of_stdIsDigit (hchall c hc)
        rw [hchlen] at hlt
        refine lt_of_lt_of_le hlt
          (le_trans (Nat.pow_le_pow_right hb1 hLmaxD) ?_)
        rw [← hM]; omega
      have hstd : std_from_chars_uint 64
          ((s.take cl).drop (cl - min cl maxD)) b =
          ⟨min cl maxD, .ok, listVal b ((s.take cl).drop (cl - min cl maxD))⟩ := by
        rw [std_uint_of_valid (by omega) hchall hcv64, hchlen]
      have hnk : s.length - cl = k * maxD := by omega
      have hstep := listVal_drop_step (s := s) b hLle hcln
      have hdrople := listVal_drop_le b s (cl - min cl maxD)
      have hchunk_le : listVal b ((s.take cl).drop (cl - min cl maxD)) *
          b ^ (s.length - cl) ≤ listVal b s := by omega
      -- the wrapped factor times the chunk value is still exact
      have hprod : b ^ (k * maxD) % 2 ^ 128 *
          listVal b ((s.take cl).drop (cl - min cl maxD)) =
          listVal b ((s.take cl).drop (cl - min cl maxD)) *
            b ^ (s.length - cl) := by
        rcases Nat.eq_zero_or_pos
            (listVal b ((s.take cl).drop (cl - min cl maxD))) with hz | hpos
        · rw [hz]; ring
        · have hfac : b ^ (k * maxD) < 2 ^ 128 := by
            have h1 : b ^ (k * maxD) ≤
                listVal b ((s.take cl).drop (cl - min cl maxD)) *
                  b ^ (s.length - cl) := by
              rw [hnk]
              exact Nat.le_mul_of_pos_left _ hpos
            exact lt_of_le_of_lt (le_trans h1 hchunk_le) hval
          rw [Nat.mod_eq_of_lt hfac, hnk]
          ring
      have hlt_mul : b ^ (k * maxD) % 2 ^ 128 *
          listVal b ((s.take cl).drop (cl - min cl maxD)) < 2 ^ 128 := by
        rw [hprod]
        exact lt_of_le_of_lt hchunk_le hval
      have hsum_eq : listVal b (s.drop cl) +
          b ^ (k * maxD) % 2 ^ 128 *
            listVal b ((s.take cl).drop (cl - min cl maxD)) =
          listVal b (s.drop (cl - min cl maxD)) := by
        rw [hprod]
        omega
      have hsum_lt : listVal b (s.drop cl) +
          b ^ (k * maxD) % 2 ^ 128 *
            listVal b ((s.take cl).drop (cl - min cl maxD)) < 2 ^ 128 := by
        rw [hsum_eq]
        exact lt_of_le_of_lt hdrople hval
      -- unfold one iteration
      simp only [fc_arb_loop, hstd, mul_overflow, add_overflow,
        decide_eq_true_eq]
      rw [if_neg (not_le.mpr hlt_mul)]
      rw [Nat.mod_eq_of_lt hlt_mul]
      rw [if_neg (not_le.mpr hsum_lt)]
      rw [Nat.mod_eq_of_lt hsum_lt, hsum_eq]
      simp only [ne_eq, not_true_eq_false, or_false]
      rcases le_or_lt cl maxD with hle | hgt
      · rw [if_pos hle]
        have hLcl : min cl maxD = cl := Nat.min_eq_left hle
        rw [hLcl, Nat.sub_self, List.drop_zero]
      · rw [if_neg (by omega)]
        have hLcl : min cl maxD = maxD := Nat.min_eq_right (by omega)
        rw [hLcl]
        have hfac' : b ^ (k * maxD) % 2 ^ 128 * M % 2 ^ 128 =
            b ^ ((k + 1) * maxD) % 2 ^ 128 := by
          rw [Nat.mod_mul_mod, hM, ← pow_add]
          congr 1
          ring
        rw [hfac']
        have hmul : (k + 1) * maxD = k * maxD + maxD := by ring
        exact ih (k + 1) (cl - maxD) (by omega) (by omega) (by omega)

/-! ## Top-level parser exactness -/

theorem pattern_length_full {b : Nat} {s : List Char}
    (h : ∀ c ∈ s, 0 ≤ digit_value c ∧ digit_value c < (b : Int)) :
    pattern_length s b = s.length := by
  induction s with
  | nil => rfl
  | cons c t ih =>
      have hc := h c (List.mem_cons_self c t)
      rw [pattern_length, if_neg (by omega),
        ih fun c hc => h c (List.mem_cons_of_mem _ hc)]
      rfl

/-- The unsigned 128-bit `from_chars` is exact on spans of valid lowercase
digits with value below `2^128` (with the three-chunk length bound for
power-of-two bases): it succeeds, stores exactly the value, and consumes
the whole span. -/
theorem from_chars_u128_exact {b : Nat} {s : List Char}
    (h2 : 2 ≤ b) (h36 : b ≤ 36) (hne : s ≠ [])
    (hall : ∀ c ∈ s, stdIsDigit b c = true)
    (hval : listVal b s < 2 ^ 128)
    (hlen3 : b &&& (b - 1) = 0 →
      s.length ≤ 3 * u64_max_representable_digits b) :
    from_chars_u128 s b = ⟨s.length, .ok, some (listVal b s)⟩ := by
  have hlen0 : s.length ≠ 0 := by
    intro hc; exact hne (List.length_eq_zero.mp hc)
  have hpat : pattern_length s b = s.length :=
    pattern_length_full fun c hc => digit_value_of_stdIsDigit b h36 c (hall c hc)
  simp only [from_chars_u128, hlen0, if_false, hpat]
  split
  · -- power-of-two bases
    rename_i hpw
    have h3 := hlen3 hpw
    rcases pow2_base_cases b h2 h36 hpw with hb | hb | hb | hb | hb <;> subst hb
    · have := @fc_pow2_loop_correct 2 1
        (u64_max_representable_digits 2)
        (countr_zero_u64 (u64_max_power 2)) s
        h2 h36 (by decide) rfl (by decide) hall hval h3
        (s.length + 1) 0 s.length (by omega) (by omega) (by omega) (by omega)
      simpa [List.drop_length, listVal] using this
    · have := @fc_pow2_loop_correct 4 2
        (u64_max_representable_digits 4)
        (countr_zero_u64 (u64_max_power 4)) s
        h2 h36 (by decide) rfl (by decide) hall hval h3
        (s.length + 1) 0 s.length (by omega) (by omega) (by omega) (by omega)
      simpa [List.drop_length, listVal] using this
    · have := @fc_pow2_loop_correct 8 3
        (u64_max_representable_digits 8)
        (countr_zero_u64 (u64_max_power 8)) s
        h2 h36 (by decide) rfl (by decide) hall hval h3
        (s.length + 1) 0 s.length (by omega) (by omega) (by omega) (by omega)
      simpa [List.drop_length, listVal] using this
    · have := @fc_pow2_loop_correct 16 4
        (u64_max_representable_digits 16)
        (countr_zero_u64 (u64_max_power 16)) s
        h2 h36 (by decide) rfl (by decide) hall hval h3
        (s.length + 1) 0 s.length (by omega) (by omega) (by omega) (by omega)
      simpa [List.drop_length, listVal] using this
    · have := @fc_pow2_loop_correct 32 5
        (u64_max_representable_digits 32)
        (countr_zero_u64 (u64_max_power 32)) s
        h2 h36 (by decide) rfl (by decide) hall hval h3
        (s.length + 1) 0 s.length (by omega) (by omega) (by omega) (by omega)
      simpa [List.drop_length, listVal] using this
  · -- arbitrary bases
    rename_i hpw
    have hMf := max_power_facts b h2 h36 hpw
    have := @fc_arb_loop_correct b
      (u64_max_representable_digits b) (u64_max_power b) s
      h2 h36 rfl hMf.1 (by omega) hall hval
      (s.length + 1) 0 s.length (by omega) (by omega) (by omega)
    simpa [List.drop_length, listVal] using this

/-! ## Pointer discipline of the parse loops -/

theorem pattern_length_le (s : List Char) (b : Nat) :
    pattern_length s b ≤ s.length := by
  induction s with
  | nil => simp [pattern_length]
  | cons c t ih =>
      rw [pattern_length]
      split <;> simp only [List.length_cons] <;> omega

theorem mem_take_pattern_length {b : Nat} {s : List Char} :
    ∀ c ∈ s.take (pattern_length s b),
      0 ≤ digit_value c ∧ digit_value c < (b : Int) := by
  induction s with
  | nil => simp
  | cons c t ih =>
      rw [pattern_length]
      split
      · simp
      · rename_i hc
        intro d hd
        rw [List.take_succ_cons] at hd
        rcases List.mem_cons.mp hd with hd | hd
        · subst hd; omega
        · exact ih d hd

theorem mem_take_mono {s : List Char} {m il : Nat} (h : m ≤ il) {c : Char}
    (hc : c ∈ s.take m) : c ∈ s.take il := by
  have : s.take m = (s.take il).take m := by
    rw [List.take_take, Nat.min_eq_left h]
  rw [this] at hc
  exact List.mem_of_mem_take hc

/-- All exits of the power-of-two loop reached with at least one
pattern character left return the pattern end, never `invalid_argument`. -/
theorem fc_pow2_loop_ptr {b maxD : Nat} {s : List Char} (h2 : 2 ≤ b)
    (h36 : b ≤ 36) (hmaxD : maxD = u64_max_representable_digits b)
    (il bits : Nat) (hil : il ≤ s.length)
    (hall : ∀ c ∈ s.take il, stdIsDigit b c = true) :
    ∀ fuel cl res sh, 1 ≤ cl → cl ≤ il → cl ≤ fuel →
      (fc_pow2_loop s b il maxD bits fuel cl res sh).ptr = il ∧
      (fc_pow2_loop s b il maxD bits fuel cl res sh).ec ≠
        .invalid_argument := by
  have hmaxD2 : 2 ≤ maxD := by
    rw [hmaxD]; exact (mrd_pow_le b h2 h36).2.2
  have hpow_le : b ^ maxD ≤ 2 ^ 64 := by
    rw [hmaxD]; exact (mrd_pow_le b h2 h36).1
  intro fuel
  induction fuel with
  | zero => intro cl res sh h1 hcil hf; omega
  | succ n ih =>
      intro cl res sh hcl1 hcil hf
      have hcln : cl ≤ s.length := le_trans hcil hil
      have hLle : min cl maxD ≤ cl := Nat.min_le_left _ _
      have hL1 : 1 ≤ min cl maxD := by
        have := Nat.min_le_right cl maxD; omega
      have hchall : ∀ c ∈ (s.take cl).drop (cl - min cl maxD),
          stdIsDigit b c = true := fun c hc =>
        hall c (mem_take_mono hcil (List.mem_of_mem_drop hc))
      have hchlen : ((s.take cl).drop (cl - min cl maxD)).length =
          min cl maxD := chunk_length hLle hcln
      have hcv64 : listVal b ((s.take cl).drop (cl - min cl maxD)) < 2 ^ 64 := by
        have hlt := listVal_lt_pow fun c hc =>
          charVal_lt_of_stdIsDigit (hchall c hc)
        rw [hchlen] at hlt
        exact lt_of_lt_of_le hlt
          (le_trans (Nat.pow_le_pow_right (by omega) (Nat.min_le_right _ _))
            hpow_le)
      have hstd : std_from_chars_uint 64
          ((s.take cl).drop (cl - min cl maxD)) b =
          ⟨min cl maxD, .ok, listVal b ((s.take cl).drop (cl - min cl maxD))⟩ := by
        rw [std_uint_of_valid (by omega) hchall hcv64, hchlen]
      simp only [fc_pow2_loop, hstd, ne_eq, not_true_eq_false, if_false]
      split
      · exact ⟨rfl, by simp⟩
      · split
        · exact ⟨rfl, by simp⟩
        · exact ih (cl - min cl maxD) _ _ (by omega) (by omega) (by omega)

/-- Same pointer discipline for the arbitrary-base loop. -/
theorem fc_arb_loop_ptr {b maxD : Nat} {s : List Char} (h2 : 2 ≤ b)
    (h36 : b ≤ 36) (hmaxD : maxD = u64_max_representable_digits b)
    (il M : Nat) (hil : il ≤ s.length)
    (hall : ∀ c ∈ s.take il, stdIsDigit b c = true) :
    ∀ fuel cl res fac, 1 ≤ cl → cl ≤ il → cl ≤ fuel →
      (fc_arb_loop s b il maxD M fuel cl res fac).ptr = il ∧
      (fc_arb_loop s b il maxD M fuel cl res fac).ec ≠
        .invalid_argument := by
  have hmaxD2 : 2 ≤ maxD := by
    rw [hmaxD]; exact (mrd_pow_le b h2 h36).2.2
  have hpow_le : b ^ maxD ≤ 2 ^ 64 := by
    rw [hmaxD]; exact (mrd_pow_le b h2 h36).1
  intro fuel
  induction fuel with
  | zero => intro cl res fac h1 hcil hf; omega
  | succ n ih =>
      intro cl res fac hcl1 hcil hf
      have hcln : cl ≤ s.length := le_trans hcil hil
      have hLle : min cl maxD ≤ cl := Nat.min_le_left _ _
      have hL1 : 1 ≤ min cl maxD := by
        have := Nat.min_le_right cl maxD; omega
      have hchall : ∀ c ∈ (s.take cl).drop (cl - min cl maxD),
          stdIsDigit b c = true := fun c hc =>
        hall c (mem_take_mono hcil (List.mem_of_mem_drop hc))
      have hchlen : ((s.take cl).drop (cl - min cl maxD)).length =
          min cl maxD := chunk_length hLle hcln
      have hcv64 : listVal b ((s.take cl).drop (cl - min cl maxD)) < 2 ^ 64 := by
        have hlt := listVal_lt_pow fun c hc =>
          charVal_lt_of_stdIsDigit (hchall c hc)
        rw [hchlen] at hlt
        exact lt_of_lt_of_le hlt
          (le_trans (Nat.pow_le_pow_right (by omega) (Nat.min_le_right _ _))
            hpow_le)
      have hstd : std_from_chars_uint 64
          ((s.take cl).drop (cl - min cl maxD)) b =
          ⟨min cl maxD, .ok, listVal b ((s.take cl).drop (cl - min cl maxD))⟩ := by
        rw [std_uint_of_valid (by omega) hchall hcv64, hchlen]
      simp only [fc_arb_loop, hstd, ne_eq, not_true_eq_false, or_false]
      split
      · exact ⟨rfl, by simp⟩
      · split
        · exact ⟨rfl, by simp⟩
        · split
          · exact ⟨rfl, by simp⟩
          · exact ih (cl - min cl maxD) _ _ (by omega) (by omega) (by omega)

/-- The power-of-two loop entered with an empty pattern fails immediately
with the pointer at the start, not assigning the out-parameter. -/
theorem fc_pow2_loop_zero (s : List Char) (b maxD bits fuel res sh : Nat) :
    fc_pow2_loop s b 0 maxD bits (fuel + 1) 0 res sh =
      ⟨0, .invalid_argument, none⟩ := by
  simp [fc_pow2_loop, std_from_chars_uint]

/-- The arbitrary-base loop entered with an empty pattern fails immediately
with the pointer at the start, assigning 0 to the out-parameter. -/
theorem fc_arb_loop_zero (s : List Char) (b maxD M fuel sh : Nat) :
    fc_arb_loop s b 0 maxD M (fuel + 1) 0 0 sh =
      ⟨0, .invalid_argument, some 0⟩ := by
  simp [fc_arb_loop, std_from_chars_uint, mul_overflow, add_overflow]

/-- Pointer behaviour of the unsigned `from_chars` on spans whose valid
digits are lowercase: the pointer is always the pattern end, and
`invalid_argument` is reported exactly for an empty pattern (with the local
accumulator read as 0 by the signed wrapper). -/
theorem from_chars_u128_ptr {b : Nat} {s : List Char} (h2 : 2 ≤ b)
    (h36 : b ≤ 36)
    (hclean : ∀ c ∈ s, 0 ≤ digit_value c → digit_value c < (b : Int) →
      stdIsDigit b c = true) :
    (from_chars_u128 s b).ptr = pattern_length s b ∧
    ((from_chars_u128 s b).ec = .invalid_argument ↔
      pattern_length s b = 0) ∧
    ((from_chars_u128 s b).ec = .invalid_argument →
      (from_chars_u128 s b).out.getD 0 = 0) := by
  have hple := pattern_length_le s b
  have hall : ∀ c ∈ s.take (pattern_length s b), stdIsDigit b c = true :=
    fun c hc => by
      have hv := mem_take_pattern_length (b := b) c hc
      exact hclean c (List.mem_of_mem_take hc) hv.1 hv.2
  rcases Nat.eq_zero_or_pos s.length with hs0 | hs1
  · have hs : s = [] := List.length_eq_zero.mp hs0
    subst hs
    simp [from_chars_u128, pattern_length]
  · simp only [from_chars_u128, Nat.pos_iff_ne_zero.mp hs1, if_false]
    rcases Nat.eq_zero_or_pos (pattern_length s b) with hp0 | hp1
    · rw [hp0]
      have hfuel : s.length + 1 = s.length + 1 := rfl
      split
      · rw [fc_pow2_loop_zero]
        exact ⟨rfl, by simp, by simp⟩
      · rw [fc_arb_loop_zero]
        exact ⟨rfl, by simp, by simp⟩
    · split
      · have := fc_pow2_loop_ptr h2 h36 rfl (pattern_length s b)
          (countr_zero_u64 (u64_max_power b)) hple hall (s.length + 1)
          (pattern_length s b) 0 0 (by omega) (by omega) (by omega)
        exact ⟨this.1, by
          constructor
          · intro hc; exact absurd hc this.2
          · intro hc; omega, fun hc => absurd hc this.2⟩
      · have := fc_arb_loop_ptr h2 h36 rfl (pattern_length s b)
          (u64_max_power b) hple hall (s.length + 1)
          (pattern_length s b) 0 1 (by omega) (by omega) (by omega)
        exact ⟨this.1, by
          constructor
          · intro hc; exact absurd hc this.2
          · intro hc; omega, fun hc => absurd hc this.2⟩

/-- On clean spans the standard scanner and the library scanner agree. -/
theorem run_eq_pattern {b : Nat} (h36 : b ≤ 36) {t : List Char}
    (hclean : ∀ c ∈ t, 0 ≤ digit_value c → digit_value c < (b : Int) →
      stdIsDigit b c = true) :
    (t.takeWhile (stdIsDigit b)).length = pattern_length t b := by
  induction t with
  | nil => rfl
  | cons c t ih =>
      rw [List.takeWhile_cons, pattern_length]
      by_cases hv : digit_value c < 0 ∨ digit_value c ≥ (b : Int)
      · rw [if_pos hv]
        have hstd : stdIsDigit b c = false := by
          by_contra hcon
          have := digit_value_of_stdIsDigit b h36 c
            (by revert hcon; cases stdIsDigit b c <;> simp)
          omega
        rw [hstd]
        rfl
      · rw [if_neg hv]
        have hstd : stdIsDigit b c = true :=
          hclean c (List.mem_cons_self c t) (by omega) (by omega)
        rw [hstd]
        simp only [if_true, List.length_cons]
        rw [ih fun d hd => hclean d (List.mem_cons_of_mem _ hd)]

/-- Pointer behaviour of the signed `from_chars` on clean spans: the
pointer is the end of the digit run (after the optional sign) except that
`invalid_argument` leaves it at the start — or at `first + 1` when the
span starts with `-` and is too long for the 64-bit fast path. -/
theorem from_chars_i128_ptr {b : Nat} {s : List Char} (h2 : 2 ≤ b)
    (h36 : b ≤ 36)
    (hclean : ∀ c ∈ s, 0 ≤ digit_value c → digit_value c < (b : Int) →
      stdIsDigit b c = true) :
    ((from_chars_i128 s b).ec ≠ .invalid_argument →
      (from_chars_i128 s b).ptr =
        (if s.head? = some '-' then 1 + pattern_length (s.drop 1) b
         else pattern_length s b)) ∧
    ((from_chars_i128 s b).ec = .invalid_argument →
      (from_chars_i128 s b).ptr =
        (if s.head? = some '-' ∧
            u64_max_representable_digits b < s.length + 1 then 1 else 0)) := by
  have hmaxD2 : 2 ≤ u64_max_representable_digits b :=
    (mrd_pow_le b h2 h36).2.2
  match s with
  | [] =>
      refine ⟨fun hc => absurd rfl hc, fun _ => ?_⟩
      simp [from_chars_i128]
  | c :: t =>
      by_cases hcm : c = '-'
      · subst hcm
        simp only [from_chars_i128, List.head?_cons, List.length_cons,
          List.drop_succ_cons, List.drop_zero, ne_eq, not_true_eq_false,
          if_false, Option.some.injEq, and_true, if_true]
        by_cases hlen : t.length + 1 + 1 ≤ u64_max_representable_digits b
        · rw [if_pos hlen]
          have hcleant : ∀ d ∈ t, 0 ≤ digit_value d →
              digit_value d < (b : Int) → stdIsDigit b d = true :=
            fun d hd => hclean d (List.mem_cons_of_mem _ hd)
          have hrun := run_eq_pattern h36 hcleant
          simp only [std_from_chars_int, List.head?_cons, Option.some.injEq,
            List.drop_succ_cons, List.drop_zero, if_true]
          rcases Nat.eq_zero_or_pos (t.takeWhile (stdIsDigit b)).length
            with hr0 | hr1
          · rw [if_pos hr0]
            refine ⟨fun hc => absurd rfl hc, fun _ => ?_⟩
            rw [if_neg (by omega)]
          · rw [if_neg (by omega)]
            have hmag : listVal b (t.takeWhile (stdIsDigit b)) < 2 ^ 62 := by
              have hlt := listVal_lt_pow
                (s := t.takeWhile (stdIsDigit b)) fun d hd =>
                charVal_lt_of_stdIsDigit (List.mem_takeWhile_imp hd)
              have hlen2 : (t.takeWhile (stdIsDigit b)).length ≤
                  u64_max_representable_digits b - 2 := by
                have := takeWhile_length_le (stdIsDigit b) t
                omega
              have hpow : b ^ (t.takeWhile (stdIsDigit b)).length ≤
                  b ^ (u64_max_representable_digits b - 2) :=
                Nat.pow_le_pow_right (by omega) hlen2
              have hb2 : b ^ (u64_max_representable_digits b - 2) * 4 ≤
                  2 ^ 64 := by
                have h4 : 4 ≤ b ^ 2 := by
                  have : 2 * 2 ≤ b * b := Nat.mul_le_mul h2 h2
                  simpa [pow_two] using this
                have heq : b ^ (u64_max_representable_digits b - 2) * b ^ 2 =
                    b ^ u64_max_representable_digits b := by
                  rw [← pow_add]
                  congr 1
                  omega
                have hle := (mrd_pow_le b h2 h36).1
                calc b ^ (u64_max_representable_digits b - 2) * 4
                    ≤ b ^ (u64_max_representable_digits b - 2) * b ^ 2 :=
                      Nat.mul_le_mul_left _ h4
                  _ = b ^ u64_max_representable_digits b := heq
                  _ ≤ 2 ^ 64 := hle
              omega
            rw [if_pos (by
              constructor
              · have : (0 : Int) ≤ listVal b (t.takeWhile (stdIsDigit b)) :=
                  Int.ofNat_nonneg _
                omega
              · have : (listVal b (t.takeWhile (stdIsDigit b)) : Int) <
                    2 ^ 62 := by exact_mod_cast hmag
                omega)]
            refine ⟨fun _ => ?_, fun hc => absurd hc (by simp)⟩
            simp [hrun]
        · rw [if_neg hlen]
          have hcleant : ∀ d ∈ t, 0 ≤ digit_value d →
              digit_value d < (b : Int) → stdIsDigit b d = true :=
            fun d hd => hclean d (List.mem_cons_of_mem _ hd)
          have hu := from_chars_u128_ptr h2 h36 hcleant
          by_cases hx : (from_chars_u128 t b).out.getD 0 > 2 ^ 127
          · rw [if_pos hx]
            refine ⟨fun _ => by rw [hu.1], fun hc => absurd hc (by simp)⟩
          · rw [if_neg hx]
            refine ⟨fun _ => by rw [hu.1], fun hc => ?_⟩
            have hp0 := hu.2.1.mp hc
            rw [if_pos (by simp; omega), hu.1, hp0]
      · have hkeep : ¬(c = '-') := hcm
        simp only [from_chars_i128, ne_eq, hkeep, not_false_eq_true,
          if_true, List.head?_cons]
        have hu := from_chars_u128_ptr h2 h36 hclean
        have hcond : ¬((some c : Option Char) = some '-') := by
          simp [hcm]
        by_cases hx : (from_chars_u128 (c :: t) b).out.getD 0 >>> 127 ≠ 0
        · rw [if_pos hx]
          refine ⟨fun _ => ?_, fun hc => absurd hc (by simp)⟩
          rw [if_neg hcond, hu.1]
        · rw [if_neg hx]
          refine ⟨fun _ => ?_, fun hc => ?_⟩
          · rw [if_neg hcond, hu.1]
          · have hp0 := hu.2.1.mp hc
            rw [if_neg (by simp [hcm]), hu.1, hp0]

/-! ## Claim C5 -/

/-- C5 counterexample: the signed parse of `-aaaaaaaaaaaaaaaaaaa` in base
10 (19 letters after the sign, none a valid digit) fails with
`invalid_argument` yet returns the pointer at `text_begin + 1`, not
`text_begin`: the long-input path hands back the inner parse's pointer,
which points after the consumed `-`. -/
theorem C5_counterexample :
    (from_chars_i128 ('-' :: List.replicate 19 'a') 10).ec =
      .invalid_argument ∧
    (from_chars_i128 ('-' :: List.replicate 19 'a') 10).ptr = 1 := by
  decide

/-- C5 amended: on spans whose scanner-valid digits are all lowercase, both
128-bit overloads return the end of the longest valid digit run (after the
optional minus sign, for the signed overload) on success and on
`result_out_of_range`; on `invalid_argument` the pointer equals
`text_begin`, except that the signed overload on a span that starts with
`-` and has `last - first + 1 > maxDigits(base)` returns
`text_begin + 1`. -/
theorem C5_pointer_convention (b : Nat) (s : List Char) (h2 : 2 ≤ b)
    (h36 : b ≤ 36)
    (hclean : ∀ c ∈ s, 0 ≤ digit_value c → digit_value c < (b : Int) →
      stdIsDigit b c = true) :
    ((from_chars_u128 s b).ec ≠ .invalid_argument →
      (from_chars_u128 s b).ptr = pattern_length s b) ∧
    ((from_chars_u128 s b).ec = .invalid_argument →
      (from_chars_u128 s b).ptr = 0) ∧
    ((from_chars_i128 s b).ec ≠ .invalid_argument →
      (from_chars_i128 s b).ptr =
        (if s.head? = some '-' then 1 + pattern_length (s.drop 1) b
         else pattern_length s b)) ∧
    ((from_chars_i128 s b).ec = .invalid_argument →
      (from_chars_i128 s b).ptr =
        (if s.head? = some '-' ∧
            u64_max_representable_digits b < s.length + 1 then 1
         else 0)) := by
  have hu := from_chars_u128_ptr h2 h36 hclean
  have hi := from_chars_i128_ptr h2 h36 hclean
  exact ⟨fun _ => hu.1, fun hc => by rw [hu.1, hu.2.1.mp hc], hi.1, hi.2⟩

/-- Witness for C5 on the span `255` in base 10. -/
theorem C5_witness :
    ((from_chars_u128 ['2', '5', '5'] 10).ec ≠ .invalid_argument →
      (from_chars_u128 ['2', '5', '5'] 10).ptr =
        pattern_length ['2', '5', '5'] 10) ∧
    ((from_chars_u128 ['2', '5', '5'] 10).ec = .invalid_argument →
      (from_chars_u128 ['2', '5', '5'] 10).ptr = 0) ∧
    ((from_chars_i128 ['2', '5', '5'] 10).ec ≠ .invalid_argument →
      (from_chars_i128 ['2', '5', '5'] 10).ptr =
        (if (['2', '5', '5'] : List Char).head? = some '-' then
          1 + pattern_length ((['2', '5', '5'] : List Char).drop 1) 10
         else pattern_length ['2', '5', '5'] 10)) ∧
    ((from_chars_i128 ['2', '5', '5'] 10).ec = .invalid_argument →
      (from_chars_i128 ['2', '5', '5'] 10).ptr =
        (if (['2', '5', '5'] : List Char).head? = some '-' ∧
            u64_max_representable_digits 10 <
              (['2', '5', '5'] : List Char).length + 1 then 1
         else 0)) :=
  C5_pointer_convention 10 ['2', '5', '5'] (by decide) (by decide)
    (by decide)

/-! ## Claim C4 -/

set_option maxRecDepth 100000 in
/-- C4 counterexamples. First: the scanner accepts the uppercase digits of
`FF` in base 16 (a valid two-digit run, value 255 < 2^128), but the parse
fails with `invalid_argument` because the 64-bit standard-library chunk
parser accepts lowercase only. Second: a run of 193 zero digits in base 2
(value 0) is reported as `result_out_of_range`, because the shift
accumulator grows past 128 even over zero chunks. -/
theorem C4_counterexample :
    (digit_value 'F' = 15 ∧ pattern_length ['F', 'F'] 16 = 2 ∧
      from_chars_u128 ['F', 'F'] 16 = ⟨0, .invalid_argument, none⟩) ∧
    (listVal 2 (List.replicate 193 '0') = 0 ∧
      pattern_length (List.replicate 193 '0') 2 = 193 ∧
      from_chars_u128 (List.replicate 193 '0') 2 =
        ⟨193, .result_out_of_range, none⟩) := by
  refine ⟨⟨by decide, by decide, by decide⟩,
    ⟨listVal_replicate_zero 2 193, by decide, by decide⟩⟩

/-- C4 amended: for every base in 2..36 and every non-empty span of digits
drawn from `0-9`/`a-z` (the lowercase alphabet) whose value is below
`2^128` — with the span at most `3 * maxDigits(base)` characters long when
the base is a power of two — the unsigned 128-bit `from_chars` succeeds,
stores exactly that value, and consumes the entire span. -/
theorem C4_in_range_parse_exact (b : Nat) (s : List Char) (h2 : 2 ≤ b)
    (h36 : b ≤ 36) (hne : s ≠ [])
    (hall : ∀ c ∈ s, stdIsDigit b c = true)
    (hval : listVal b s < 2 ^ 128)
    (hlen3 : b &&& (b - 1) = 0 →
      s.length ≤ 3 * u64_max_representable_digits b) :
    from_chars_u128 s b = ⟨s.length, .ok, some (listVal b s)⟩ :=
  from_chars_u128_exact h2 h36 hne hall hval hlen3

/-- Witness for C4: the base-10 span `255` parses to 255. -/
theorem C4_witness :
    from_chars_u128 ['2', '5', '5'] 10 =
      ⟨(['2', '5', '5'] : List Char).length, .ok,
        some (listVal 10 ['2', '5', '5'])⟩ :=
  C4_in_range_parse_exact 10 ['2', '5', '5'] (by decide) (by decide)
    (by decide) (by decide) (by decide) (by decide)

/-! ## Lemmas: the standard minimal digit string -/

theorem natDigitsRev_zero (b : Nat) : ∀ fuel, natDigitsRev b fuel 0 = [] := by
  intro fuel; cases fuel <;> rfl

theorem natDigitsRev_succ {b x : Nat} (hx : x ≠ 0) (fuel : Nat) :
    natDigitsRev b (fuel + 1) x =
      digitChar36 (x % b) :: natDigitsRev b fuel (x / b) := by
  match x, hx with
  | m + 1, _ => rfl

theorem div_lt_pow_succ {b x n : Nat} (hb : 2 ≤ b) (h : x < b ^ (n + 1)) :
    x / b < b ^ n := by
  rw [Nat.div_lt_iff_lt_mul (by omega)]
  calc x < b ^ (n + 1) := h
    _ = b ^ n * b := by rw [pow_succ]

theorem natDigitsRev_fuel {b : Nat} (hb : 2 ≤ b) :
    ∀ f1 f2 x, x < b ^ f1 → x < b ^ f2 →
      natDigitsRev b f1 x = natDigitsRev b f2 x := by
  intro f1
  induction f1 with
  | zero =>
      intro f2 x h1 _
      have hx : x = 0 := by simpa using h1
      subst hx
      rw [natDigitsRev_zero, natDigitsRev_zero]
  | succ n ih =>
      intro f2 x h1 h2
      rcases Nat.eq_zero_or_pos x with h0 | hx
      · subst h0
        rw [natDigitsRev_zero, natDigitsRev_zero]
      · match f2 with
        | 0 =>
            exfalso
            have : x = 0 := by simpa using h2
            omega
        | m + 1 =>
            rw [natDigitsRev_succ (by omega), natDigitsRev_succ (by omega)]
            rcases Nat.eq_zero_or_pos (x / b) with hd0 | hd1
            · rw [hd0, natDigitsRev_zero, natDigitsRev_zero]
            · rw [ih _ (x / b) (div_lt_pow_succ hb h1) (div_lt_pow_succ hb h2)]

theorem listVal_natDigitsRev {b : Nat} (hb2 : 2 ≤ b) (hb36 : b ≤ 36) :
    ∀ fuel x, x < b ^ fuel →
      listVal b (natDigitsRev b fuel x).reverse = x := by
  intro fuel
  induction fuel with
  | zero =>
      intro x h
      have hx : x = 0 := by simpa using h
      subst hx
      rfl
  | succ n ih =>
      intro x h
      rcases Nat.eq_zero_or_pos x with h0 | hx
      · subst h0; rfl
      · rw [natDigitsRev_succ (by omega), List.reverse_cons, listVal_append,
          ih (x / b) (div_lt_pow_succ hb2 h)]
        have hsing : listVal b [digitChar36 (x % b)] = x % b := by
          show 0 * b + charVal (digitChar36 (x % b)) = x % b
          rw [charVal_digitChar36 (x % b) (by
            have := Nat.mod_lt x (show 0 < b by omega)
            omega)]
          ring
        rw [hsing]
        have hdm := Nat.div_add_mod x b
        have hcomm : x / b * b = b * (x / b) := Nat.mul_comm _ _
        simp only [List.length_cons, List.length_nil, zero_add, pow_one]
        omega

theorem natDigitsRev_length_le {b : Nat} (hb : 2 ≤ b) :
    ∀ fuel L x, x < b ^ L → L ≤ fuel →
      (natDigitsRev b fuel x).length ≤ L := by
  intro fuel
  induction fuel with
  | zero =>
      intro L x _ _
      rw [show natDigitsRev b 0 x = [] from rfl]
      simp
  | succ n ih =>
      intro L x h hL
      rcases Nat.eq_zero_or_pos x with h0 | hx
      · subst h0; rw [natDigitsRev_zero]; simp
      · match L with
        | 0 =>
            exfalso
            have : x = 0 := by simpa using h
            omega
        | m + 1 =>
            rw [natDigitsRev_succ (by omega), List.length_cons]
            have := ih m (x / b) (div_lt_pow_succ hb h) (by omega)
            omega

theorem pow_pred_le_natDigitsRev {b : Nat} (hb : 2 ≤ b) :
    ∀ fuel x, 1 ≤ x → b ^ ((natDigitsRev b fuel x).length - 1) ≤ x := by
  intro fuel
  induction fuel with
  | zero =>
      intro x hx
      rw [show natDigitsRev b 0 x = [] from rfl]
      simpa using hx
  | succ n ih =>
      intro x hx
      rw [natDigitsRev_succ (by omega), List.length_cons]
      rcases Nat.eq_zero_or_pos (x / b) with hd0 | hd1
      · rw [hd0, natDigitsRev_zero]
        simpa using hx
      · have hih := ih (x / b) hd1
        rcases Nat.eq_zero_or_pos (natDigitsRev b n (x / b)).length with hl0 | hl1
        · rw [hl0]
          simpa using hx
        · have heq : (natDigitsRev b n (x / b)).length + 1 - 1 =
              ((natDigitsRev b n (x / b)).length - 1) + 1 := by omega
          rw [heq, pow_succ]
          have h1 : b ^ ((natDigitsRev b n (x / b)).length - 1) * b ≤
              (x / b) * b := Nat.mul_le_mul_right b hih
          have h2 : x / b * b ≤ x := Nat.div_mul_le_self x b
          omega

theorem lt_pow_natDigitsRev_length {b : Nat} (hb : 2 ≤ b) :
    ∀ fuel x, x < b ^ fuel → x < b ^ (natDigitsRev b fuel x).length := by
  intro fuel
  induction fuel with
  | zero =>
      intro x h
      have hx : x = 0 := by simpa using h
      subst hx
      rw [natDigitsRev_zero]
      simp
  | succ n ih =>
      intro x h
      rcases Nat.eq_zero_or_pos x with h0 | hx
      · subst h0; rw [natDigitsRev_zero]; simp
      · rw [natDigitsRev_succ (by omega), List.length_cons]
        have hih := ih (x / b) (div_lt_pow_succ hb h)
        have hdm := Nat.div_add_mod x b
        have hm := Nat.mod_lt x (show 0 < b by omega)
        rw [pow_succ]
        have : (x / b + 1) * b ≤ b ^ (natDigitsRev b n (x / b)).length * b :=
          Nat.mul_le_mul_right b hih
        have h4 : x < (x / b + 1) * b := by
          calc x = b * (x / b) + x % b := (Nat.div_add_mod x b).symm
            _ < b * (x / b) + b := by omega
            _ = (x / b + 1) * b := by ring
        omega

theorem natDigitsRev_mem {b : Nat} (hb : 1 ≤ b) :
    ∀ fuel x c, c ∈ natDigitsRev b fuel x → ∃ d, d < b ∧ c = digitChar36 d := by
  intro fuel
  induction fuel with
  | zero => intro x c hc; simp [natDigitsRev] at hc
  | succ n ih =>
      intro x c hc
      rcases Nat.eq_zero_or_pos x with h0 | hx
      · subst h0; rw [natDigitsRev_zero] at hc; simp at hc
      · rw [natDigitsRev_succ (by omega)] at hc
        rcases List.mem_cons.mp hc with hc | hc
        · subst hc
          exact ⟨x % b, Nat.mod_lt x (by omega), rfl⟩
        · exact ih _ c hc

/-! Helper facts about `stdRepr`. -/

theorem stdIsDigit_zero_char {b : Nat} (hb : 2 ≤ b) :
    stdIsDigit b '0' = true := by
  simp only [stdIsDigit]
  have h48 : ('0' : Char).toNat = 48 := by decide
  rw [h48]
  simp
  omega

theorem stdRepr_length_pos (b x : Nat) : 1 ≤ (stdRepr b x).length := by
  rw [stdRepr]
  split
  · simp
  · rename_i hx
    rw [List.length_reverse]
    match hh : natDigitsRev b 130 x with
    | [] =>
        exfalso
        match x, hx with
        | m + 1, _ => simp [natDigitsRev] at hh
    | c :: t => simp

theorem stdRepr_all_valid {b x : Nat} (hb2 : 2 ≤ b) (hb36 : b ≤ 36) :
    ∀ c ∈ stdRepr b x, stdIsDigit b c = true := by
  intro c hc
  rw [stdRepr] at hc
  split at hc
  · rcases List.mem_singleton.mp hc with rfl
    exact stdIsDigit_zero_char hb2
  · rcases natDigitsRev_mem (by omega) 130 x c (List.mem_reverse.mp hc) with
      ⟨d, hd, rfl⟩
    exact stdIsDigit_digitChar36 b hb36 d hd

theorem listVal_stdRepr {b x : Nat} (hb2 : 2 ≤ b) (hb36 : b ≤ 36)
    (h : x < b ^ 130) : listVal b (stdRepr b x) = x := by
  rw [stdRepr]
  split
  · rename_i hx
    subst hx
    show 0 * b + charVal '0' = 0
    rw [charVal_zero]
    ring
  · exact listVal_natDigitsRev hb2 hb36 130 x h

theorem stdRepr_length_le {b x L : Nat} (hb : 2 ≤ b) (h : x < b ^ L)
    (hL : L ≤ 130) (hL1 : 1 ≤ L) : (stdRepr b x).length ≤ L := by
  rw [stdRepr]
  split
  · simpa using hL1
  · rw [List.length_reverse]
    exact natDigitsRev_length_le hb 130 L x h hL

theorem lt_pow_stdRepr_length {b x : Nat} (hb : 2 ≤ b) (h : x < b ^ 130) :
    x < b ^ (stdRepr b x).length := by
  rw [stdRepr]
  split
  · rename_i hx
    subst hx
    simp only [List.length_cons, List.length_nil, zero_add, pow_one]
    omega
  · rw [List.length_reverse]
    exact lt_pow_natDigitsRev_length hb 130 x h

theorem pow_pred_le_stdRepr {b x : Nat} (hb : 2 ≤ b) (hx : 1 ≤ x) :
    b ^ ((stdRepr b x).length - 1) ≤ x := by
  rw [stdRepr, if_neg (by omega), List.length_reverse]
  exact pow_pred_le_natDigitsRev hb 130 x hx

theorem stdRepr_head_ne_zero {b x : Nat} (hb2 : 2 ≤ b) (hb36 : b ≤ 36)
    (hx : 1 ≤ x) (h : x < b ^ 130) :
    ∃ c t2, stdRepr b x = c :: t2 ∧ c ≠ '0' ∧ stdIsDigit b c = true := by
  rw [stdRepr, if_neg (by omega)]
  suffices hsuf : ∀ fuel y, 1 ≤ y → y < b ^ fuel →
      ∃ d t2, (natDigitsRev b fuel y).reverse = digitChar36 d :: t2 ∧
        1 ≤ d ∧ d < b by
    rcases hsuf 130 x hx h with ⟨d, t2, heq, hd1, hdb⟩
    refine ⟨digitChar36 d, t2, heq, digitChar36_ne_zero d (by omega) hd1,
      stdIsDigit_digitChar36 b hb36 d hdb⟩
  intro fuel
  induction fuel with
  | zero =>
      intro y hy hlt
      exfalso
      have : y = 0 := by simpa using hlt
      omega
  | succ n ih =>
      intro y hy hlt
      rw [natDigitsRev_succ (by omega), List.reverse_cons]
      rcases Nat.eq_zero_or_pos (y / b) with hd0 | hd1
      · rw [hd0, natDigitsRev_zero]
        refine ⟨y % b, [], by simp, ?_, Nat.mod_lt y (by omega)⟩
        have h2 := Nat.div_add_mod y b
        rw [hd0, Nat.mul_zero] at h2
        omega
      · rcases ih (y / b) hd1 (div_lt_pow_succ hb2 hlt) with
          ⟨d, t2, heq, hd1', hdb⟩
        exact ⟨d, t2 ++ [digitChar36 (y % b)], by rw [heq]; rfl, hd1', hdb⟩

theorem stdRepr_append_digit {b x : Nat} (hb : 2 ≤ b) (hx : b ≤ x)
    (h : x < b ^ 130) :
    stdRepr b x = stdRepr b (x / b) ++ [digitChar36 (x % b)] := by
  have hx0 : x ≠ 0 := by omega
  have hd1 : 1 ≤ x / b := Nat.one_le_div_iff (by omega) |>.mpr hx
  rw [stdRepr, if_neg hx0, stdRepr, if_neg (by omega),
    natDigitsRev_succ hx0 129, List.reverse_cons]
  congr 2
  exact natDigitsRev_fuel hb 129 130 (x / b)
    (div_lt_pow_succ hb h)
    (lt_trans (div_lt_pow_succ hb h)
      (Nat.pow_lt_pow_right (by omega) (by omega)))

theorem stdRepr_length_div_pow {b : Nat} (hb : 2 ≤ b) :
    ∀ k x, b ^ k ≤ x → x < b ^ 130 →
      (stdRepr b x).length = (stdRepr b (x / b ^ k)).length + k := by
  intro k
  induction k with
  | zero => intro x _ _; simp
  | succ m ih =>
      intro x hx h
      have hxb : b ≤ x := by
        have : b ^ 1 ≤ b ^ (m + 1) := Nat.pow_le_pow_right (by omega) (by omega)
        simpa using le_trans this hx
      rw [stdRepr_append_digit hb hxb h, List.length_append]
      have hdivbound : b ^ m ≤ x / b := by
        rw [Nat.le_div_iff_mul_le (by omega)]
        calc b ^ m * b = b ^ (m + 1) := (pow_succ b m).symm
          _ ≤ x := hx
      have hdivlt : x / b < b ^ 130 := by
        have := Nat.div_le_self x b
        omega
      rw [ih (x / b) hdivbound hdivlt, Nat.div_div_eq_div_mul,
        ← pow_succ']
      simp only [List.length_cons, List.length_nil]
      omega

/-- Splitting a power-of-two modulus at a bit boundary. -/
theorem mod_pow_split (x a c : Nat) :
    x % 2 ^ (a + c) = x / 2 ^ a % 2 ^ c * 2 ^ a + x % 2 ^ a := by
  rw [pow_add, Nat.mod_mul]
  ring

/-! ## Lemmas: buffer memory -/

theorem readList_length (mem : Nat → Char) (pos n : Nat) :
    (readList mem pos n).length = n := by
  simp [readList]

theorem readList_congr {mem1 mem2 : Nat → Char} {pos n : Nat}
    (h : ∀ i, i < n → mem1 (pos + i) = mem2 (pos + i)) :
    readList mem1 pos n = readList mem2 pos n := by
  apply List.ext_getElem
  · simp [readList]
  · intro i h1 h2
    simp only [readList, List.getElem_map, List.getElem_range]
    exact h i (by simpa [readList] using h1)

theorem readList_split (mem : Nat → Char) (pos m n : Nat) :
    readList mem pos (m + n) =
      readList mem pos m ++ readList mem (pos + m) n := by
  apply List.ext_getElem
  · simp [readList]
  · intro i h1 h2
    simp only [readList, List.getElem_map, List.getElem_range]
    by_cases hi : i < m
    · rw [List.getElem_append_left (by simpa [readList])]
      simp [readList]
    · rw [List.getElem_append_right (by simpa [readList] using hi)]
      simp only [readList, List.length_map, List.length_range,
        List.getElem_map, List.getElem_range]
      congr 1
      omega

theorem writeList_lt {mem : Nat → Char} {pos : Nat} {cs : List Char}
    {j : Nat} (h : j < pos) : writeList mem pos cs j = mem j :=
  if_neg (by omega)

theorem writeList_ge {mem : Nat → Char} {pos : Nat} {cs : List Char}
    {j : Nat} (h : pos + cs.length ≤ j) : writeList mem pos cs j = mem j :=
  if_neg (by omega)

theorem readList_writeList (mem : Nat → Char) (pos : Nat) (cs : List Char) :
    readList (writeList mem pos cs) pos cs.length = cs := by
  apply List.ext_getElem
  · simp [readList]
  · intro i h1 h2
    simp only [readList, List.getElem_map, List.getElem_range]
    rw [writeList, if_pos (by constructor <;> omega)]
    rw [List.getD_eq_getElem cs ' ' (by omega)]
    congr 1
    omega

/-! ## Correctness of the power-of-two format loop -/

theorem std_to_chars_fits {mem : Nat → Char} {pos space v b : Nat}
    (h : pos + (stdRepr b v).length ≤ space) :
    std_to_chars_u64 mem pos space v b =
      ⟨writeList mem pos (stdRepr b v),
        (List.range (stdRepr b v).length).map (pos + ·),
        pos + (stdRepr b v).length, .ok⟩ := by
  rw [std_to_chars_u64, if_pos h]


/-- Reading back a chunk that was right-aligned by the padding sequence
`ranges::copy` + `ranges::fill_n` (charconv_ext.hpp:370-372) yields the
digits preceded by zeros. -/
theorem pad_readList (mem : Nat → Char) (cf zp : Nat) (cs : List Char) :
    readList (memFillZero (memCopy (writeList mem cf cs) cf (cf + zp)
      cs.length) cf zp) cf (zp + cs.length) =
    List.replicate zp '0' ++ cs := by
  rw [memCopy, readList_writeList, memFillZero, readList_split]
  congr 1
  · have hrl := readList_writeList
      (writeList (writeList mem cf cs) (cf + zp) cs) cf
      (List.replicate zp '0')
    rw [List.length_replicate] at hrl
    exact hrl
  · rw [@readList_congr _ (writeList (writeList mem cf cs) (cf + zp) cs) _ _
      (fun i hi => writeList_ge (by rw [List.length_replicate]; omega))]
    exact readList_writeList _ _ _
/-- Full correctness of the power-of-two formatting loop
(charconv_ext.hpp:362-385) when the buffer has room: starting at shift
`jm * bits` it emits `jm + 1` chunks, succeeds, leaves everything below
`current_first` untouched, and the characters written at
`[current_first, ptr)` are valid digits spelling `x mod 2 ^ ((jm+1)*bits)`,
unpadded in the leading chunk when `first_digit` is set. -/
theorem tc_pow2_loop_fmt {b g maxD bits mask space x : Nat}
    (h2 : 2 ≤ b) (h36 : b ≤ 36)
    (hg : b = 2 ^ g) (hg1 : 1 ≤ g)
    (hmaxD : maxD = u64_max_representable_digits b)
    (hbits : bits = g * maxD)
    (hmask : mask = 2 ^ bits - 1) :
    ∀ fuel jm mem cf fd ws, jm + 1 ≤ fuel → cf + (jm + 1) * maxD ≤ space →
      ∃ r : TCResult,
        tc_pow2_loop x b space maxD bits mask fuel mem ws cf
          (jm * bits) fd = r ∧
        r.ec = .ok ∧
        (∀ i, i < cf → r.mem i = mem i) ∧
        (fd = false → r.ptr = cf + (jm + 1) * maxD) ∧
        (fd = true → r.ptr =
          cf + (stdRepr b (x >>> (jm * bits) &&& mask)).length +
            jm * maxD) ∧
        cf + 1 ≤ r.ptr ∧
        r.ptr ≤ cf + (jm + 1) * maxD ∧
        (∀ c ∈ readList r.mem cf (r.ptr - cf), stdIsDigit b c = true) ∧
        listVal b (readList r.mem cf (r.ptr - cf)) =
          x % 2 ^ ((jm + 1) * bits) ∧
        (fd = true → (readList r.mem cf (r.ptr - cf)).head? =
          (stdRepr b (x >>> (jm * bits) &&& mask)).head?) := by
  have hmaxD2 : 2 ≤ maxD := by
    rw [hmaxD]; exact (mrd_pow_le b h2 h36).2.2
  have hpow_le : b ^ maxD ≤ 2 ^ 64 := by
    rw [hmaxD]; exact (mrd_pow_le b h2 h36).1
  have hbits1 : 1 ≤ bits := by
    rw [hbits]
    have h1 : 1 * 1 ≤ g * maxD := Nat.mul_le_mul hg1 (by omega)
    omega
  have hgmd : g * maxD ≤ 64 := by
    have h1 := hpow_le
    rw [hg, ← pow_mul] at h1
    exact (Nat.pow_le_pow_iff_right (by omega)).mp h1
  have hmaxD64 : maxD ≤ 64 := by
    have h1 : 1 * maxD ≤ g * maxD := Nat.mul_le_mul_right maxD hg1
    omega
  have hpmd : b ^ maxD = 2 ^ bits := by
    rw [hg, ← pow_mul, hbits]
  intro fuel
  induction fuel with
  | zero => intro jm mem cf fd ws hj hsp; omega
  | succ n ih =>
      intro jm mem cf fd ws hj hsp
      have hpiece : x >>> (jm * bits) &&& mask < b ^ maxD := by
        rw [hmask, Nat.and_pow_two_sub_one_eq_mod, hpmd]
        exact Nat.mod_lt _ (Nat.two_pow_pos bits)
      have hreplen : (stdRepr b (x >>> (jm * bits) &&& mask)).length ≤ maxD :=
        stdRepr_length_le h2 hpiece (by omega) (by omega)
      have hreplen1 : 1 ≤ (stdRepr b (x >>> (jm * bits) &&& mask)).length :=
        stdRepr_length_pos _ _
      have hfit : cf + (stdRepr b (x >>> (jm * bits) &&& mask)).length ≤
          space := by
        have hmono : (1 : Nat) * maxD ≤ (jm + 1) * maxD :=
          Nat.mul_le_mul_right maxD (by omega)
        omega
      have hstd := @std_to_chars_fits mem cf space
        (x >>> (jm * bits) &&& mask) b hfit
      have hvalrepr : listVal b (stdRepr b (x >>> (jm * bits) &&& mask)) =
          x >>> (jm * bits) &&& mask :=
        listVal_stdRepr h2 h36 (lt_of_lt_of_le hpiece
          (Nat.pow_le_pow_right (by omega) (by omega)))
      have hvalidrepr := stdRepr_all_valid
        (x := x >>> (jm * bits) &&& mask) h2 h36
      have hpiece_mod : x >>> (jm * bits) &&& mask =
          x / 2 ^ (jm * bits) % 2 ^ bits := by
        rw [hmask, Nat.and_pow_two_sub_one_eq_mod, Nat.shiftRight_eq_div_pow]
      simp only [tc_pow2_loop, hstd, ne_eq, not_true_eq_false, if_false,
        Nat.add_sub_cancel_left]
      by_cases hpad : (¬fd = true) ∧
      ¬maxD - (stdRepr b (x >>> (jm * bits) &&& mask)).length = 0
      · -- this chunk is zero-padded to maxD characters
        simp only [eq_true hpad, if_true]
        have hfd : fd = false := by
          rcases hpad with ⟨h1, _⟩
          revert h1; cases fd <;> simp
        subst hfd
        have hA : readList
            (memFillZero
              (memCopy (writeList mem cf
                (stdRepr b (x >>> (jm * bits) &&& mask))) cf
                (cf + (maxD -
                  (stdRepr b (x >>> (jm * bits) &&& mask)).length))
                (stdRepr b (x >>> (jm * bits) &&& mask)).length)
              cf (maxD - (stdRepr b (x >>> (jm * bits) &&& mask)).length))
            cf maxD =
            List.replicate
              (maxD - (stdRepr b (x >>> (jm * bits) &&& mask)).length) '0' ++
              stdRepr b (x >>> (jm * bits) &&& mask) := by
          have hA1 := pad_readList mem cf
            (maxD - (stdRepr b (x >>> (jm * bits) &&& mask)).length)
            (stdRepr b (x >>> (jm * bits) &&& mask))
          rw [show maxD - (stdRepr b (x >>> (jm * bits) &&& mask)).length +
            (stdRepr b (x >>> (jm * bits) &&& mask)).length = maxD
            from by omega] at hA1
          exact hA1
        have hBframe : ∀ i, i < cf →
            (memFillZero
              (memCopy (writeList mem cf
                (stdRepr b (x >>> (jm * bits) &&& mask))) cf
                (cf + (maxD -
                  (stdRepr b (x >>> (jm * bits) &&& mask)).length))
                (stdRepr b (x >>> (jm * bits) &&& mask)).length)
              cf (maxD - (stdRepr b (x >>> (jm * bits) &&& mask)).length))
              i = mem i := by
          intro i hi
          rw [memFillZero, writeList_lt hi, memCopy,
            writeList_lt (by omega), writeList_lt hi]
        have hCvalid : ∀ c ∈ List.replicate
            (maxD - (stdRepr b (x >>> (jm * bits) &&& mask)).length) '0' ++
            stdRepr b (x >>> (jm * bits) &&& mask),
            stdIsDigit b c = true := by
          intro c hc
          rcases List.mem_append.mp hc with hc | hc
          · rcases List.eq_of_mem_replicate hc with rfl
            exact stdIsDigit_zero_char h2
          · exact hvalidrepr c hc
        have hCval : listVal b (List.replicate
            (maxD - (stdRepr b (x >>> (jm * bits) &&& mask)).length) '0' ++
            stdRepr b (x >>> (jm * bits) &&& mask)) =
            x / 2 ^ (jm * bits) % 2 ^ bits := by
          rw [listVal_replicate_zero_append, hvalrepr, hpiece_mod]
        by_cases hj0 : jm = 0
        · subst hj0
          simp only [eq_true (Nat.zero_mul bits), if_true]
          refine ⟨_, rfl, rfl, hBframe, ?_, fun h => Bool.noConfusion h,
            ?_, ?_, ?_, ?_, fun h => Bool.noConfusion h⟩
          · intro _
            dsimp only
            have e1 : (0 + 1) * maxD = maxD := by ring
            omega
          · dsimp only
            omega
          · dsimp only
            have e1 : (0 + 1) * maxD = maxD := by ring
            omega
          · dsimp only
            rw [Nat.add_sub_cancel_left, hA]
            exact hCvalid
          · dsimp only
            rw [Nat.add_sub_cancel_left, hA, hCval]
            have e1 : (0 : Nat) * bits = 0 := Nat.zero_mul bits
            have e2 : (0 + 1) * bits = bits := by ring
            rw [e1, e2, pow_zero, Nat.div_one]
        · obtain ⟨jmm, rfl⟩ : ∃ jmm, jm = jmm + 1 := ⟨jm - 1, by omega⟩
          have hshift0 : ¬((jmm + 1) * bits = 0) := by
            have h1 : 1 * bits ≤ (jmm + 1) * bits :=
              Nat.mul_le_mul_right bits (by omega)
            omega
          have hsub : (jmm + 1) * bits - bits = jmm * bits := by
            have h1 : (jmm + 1) * bits = jmm * bits + bits := by ring
            omega
          simp only [eq_false hshift0, if_false, hsub]
          obtain ⟨r, hr, irec, iframe, iptrf, iptrt, iptr1, iptrle,
            ivalid, ival, ihead⟩ := ih jmm _ (cf + maxD) false _ (by omega)
            (by
              have h1 : (jmm + 1 + 1) * maxD = (jmm + 1) * maxD + maxD := by
                ring
              omega)
          rw [hr]
          have hptr := iptrf rfl
          have hmul1 : (jmm + 1 + 1) * maxD = maxD + (jmm + 1) * maxD := by
            ring
          have htotal : r.ptr - cf = maxD + (jmm + 1) * maxD := by omega
          have h2side : r.ptr - (cf + maxD) = (jmm + 1) * maxD := by omega
          have hchunk_read : readList r.mem cf maxD =
              List.replicate (maxD -
                (stdRepr b (x >>> ((jmm + 1) * bits) &&& mask)).length) '0' ++
                stdRepr b (x >>> ((jmm + 1) * bits) &&& mask) := by
            rw [@readList_congr _ r.mem _ _
              (fun i hi => (iframe (cf + i) (by omega)).symm)] at hA
            exact hA
          have hbpow : b ^ ((jmm + 1) * maxD) = 2 ^ ((jmm + 1) * bits) := by
            rw [hg, ← pow_mul, hbits]
            congr 1
            ring
          have hsplit := mod_pow_split x ((jmm + 1) * bits) bits
          rw [show (jmm + 1) * bits + bits = (jmm + 1 + 1) * bits by ring]
            at hsplit
          rw [h2side] at ivalid ival
          refine ⟨r, rfl, irec, ?_, ?_, fun h => Bool.noConfusion h,
            by omega, by omega, ?_, ?_, fun h => Bool.noConfusion h⟩
          · intro i hi
            rw [iframe i (by omega), hBframe i hi]
          · intro _
            omega
          · rw [htotal, readList_split, hchunk_read]
            intro c hc
            rcases List.mem_append.mp hc with hc | hc
            · exact hCvalid c hc
            · exact ivalid c hc
          · rw [htotal, readList_split, hchunk_read, listVal_append,
              readList_length, hCval, ival, hbpow, hsplit]
      · -- this chunk is written unpadded (first digit, or already full)
        simp only [eq_false hpad, if_false]
        have hlen_cases : (fd = true) ∨
            (stdRepr b (x >>> (jm * bits) &&& mask)).length = maxD := by
          rcases fd with _ | _
          · right
            by_contra hc
            exact hpad ⟨by simp, by omega⟩
          · left; rfl
        by_cases hj0 : jm = 0
        · subst hj0
          simp only [eq_true (Nat.zero_mul bits), if_true]
          refine ⟨_, rfl, rfl, fun i hi => writeList_lt hi, ?_, ?_,
            ?_, ?_, ?_, ?_, ?_⟩
          · intro hfd
            dsimp only
            rcases hlen_cases with h | h
            · rw [hfd] at h
              exact Bool.noConfusion h
            · have e1 : (0 + 1) * maxD = maxD := by ring
              omega
          · intro _
            dsimp only
            have e0 : (0 : Nat) * maxD = 0 := Nat.zero_mul maxD
            omega
          · dsimp only
            omega
          · dsimp only
            have e1 : (0 + 1) * maxD = maxD := by ring
            omega
          · dsimp only
            rw [Nat.add_sub_cancel_left, readList_writeList]
            exact hvalidrepr
          · dsimp only
            rw [Nat.add_sub_cancel_left, readList_writeList, hvalrepr,
              hpiece_mod]
            have e1 : (0 : Nat) * bits = 0 := Nat.zero_mul bits
            have e2 : (0 + 1) * bits = bits := by ring
            rw [e1, e2, pow_zero, Nat.div_one]
          · intro _
            dsimp only
            rw [Nat.add_sub_cancel_left, readList_writeList]
        · obtain ⟨jmm, rfl⟩ : ∃ jmm, jm = jmm + 1 := ⟨jm - 1, by omega⟩
          have hshift0 : ¬((jmm + 1) * bits = 0) := by
            have h1 : 1 * bits ≤ (jmm + 1) * bits :=
              Nat.mul_le_mul_right bits (by omega)
            omega
          have hsub : (jmm + 1) * bits - bits = jmm * bits := by
            have h1 : (jmm + 1) * bits = jmm * bits + bits := by ring
            omega
          simp only [eq_false hshift0, if_false, hsub]
          obtain ⟨r, hr, irec, iframe, iptrf, iptrt, iptr1, iptrle,
            ivalid, ival, ihead⟩ := ih jmm _
            (cf + (stdRepr b (x >>> ((jmm + 1) * bits) &&& mask)).length)
            false _ (by omega)
            (by
              have h1 : (jmm + 1 + 1) * maxD = (jmm + 1) * maxD + maxD := by
                ring
              omega)
          rw [hr]
          have hptr := iptrf rfl
          have hmul1 : (jmm + 1 + 1) * maxD = maxD + (jmm + 1) * maxD := by
            ring
          have htotal : r.ptr - cf =
              (stdRepr b (x >>> ((jmm + 1) * bits) &&& mask)).length +
                (jmm + 1) * maxD := by omega
          have h2side : r.ptr -
              (cf + (stdRepr b (x >>> ((jmm + 1) * bits) &&& mask)).length) =
              (jmm + 1) * maxD := by omega
          have hchunk_read : readList r.mem cf
              (stdRepr b (x >>> ((jmm + 1) * bits) &&& mask)).length =
              stdRepr b (x >>> ((jmm + 1) * bits) &&& mask) := by
            rw [@readList_congr _ (writeList mem cf
              (stdRepr b (x >>> ((jmm + 1) * bits) &&& mask))) _ _
              (fun i hi => iframe (cf + i) (by omega))]
            exact readList_writeList _ _ _
          have hbpow : b ^ ((jmm + 1) * maxD) = 2 ^ ((jmm + 1) * bits) := by
            rw [hg, ← pow_mul, hbits]
            congr 1
            ring
          have hsplit := mod_pow_split x ((jmm + 1) * bits) bits
          rw [show (jmm + 1) * bits + bits = (jmm + 1 + 1) * bits by ring]
            at hsplit
          rw [h2side] at ivalid ival
          refine ⟨r, rfl, irec, ?_, ?_, fun _ => hptr,
            by omega, by omega, ?_, ?_, ?_⟩
          · intro i hi
            rw [iframe i (by omega), writeList_lt hi]
          · intro hfd
            rcases hlen_cases with h | h
            · rw [hfd] at h
              exact Bool.noConfusion h
            · omega
          · rw [htotal, readList_split, hchunk_read]
            intro c hc
            rcases List.mem_append.mp hc with hc | hc
            · exact hvalidrepr c hc
            · exact ivalid c hc
          · rw [htotal, readList_split, hchunk_read, listVal_append,
              readList_length, ival, hvalrepr, hpiece_mod, hbpow, hsplit]
          · intro _
            rw [htotal, readList_split, hchunk_read]
            obtain ⟨c0, t0, heq⟩ := List.exists_cons_of_ne_nil
              (List.length_pos.mp hreplen1)
            rw [heq, List.cons_append]
            rfl


/-- A digit accepted by `std::from_chars` is never the minus sign. -/
theorem stdIsDigit_ne_minus {b : Nat} {c : Char}
    (h : stdIsDigit b c = true) : c ≠ '-' := by
  intro hc
  subst hc
  simp only [stdIsDigit] at h
  have h45 : ('-' : Char).toNat = 45 := by decide
  rw [h45] at h
  simp at h

/-- For a power-of-two base, a digit string bounded by `2^128` is at most
`3 * maxDigits` long (the parser's shift-accumulator headroom). -/
theorem pow2_len_le {b d m : Nat} (h2 : 2 ≤ b) (h36 : b ≤ 36)
    (hpow2 : b &&& (b - 1) = 0) (hd : b ^ (d - 1) ≤ m) (hm : m < 2 ^ 128) :
    d ≤ 3 * u64_max_representable_digits b := by
  rcases pow2_base_cases b h2 h36 hpow2 with rfl | rfl | rfl | rfl | rfl
  · have e : u64_max_representable_digits 2 = 64 := by decide
    rw [e]
    have h1 : (2 : Nat) ^ (d - 1) < 2 ^ 128 := lt_of_le_of_lt hd hm
    have h2 := (Nat.pow_lt_pow_iff_right (a := 2) (by omega)).mp h1
    omega
  · have e : u64_max_representable_digits 4 = 32 := by decide
    rw [e]
    have h1 : (4 : Nat) ^ (d - 1) < 4 ^ 64 :=
      lt_of_le_of_lt hd (lt_of_lt_of_le hm (by norm_num))
    have h2 := (Nat.pow_lt_pow_iff_right (a := 4) (by omega)).mp h1
    omega
  · have e : u64_max_representable_digits 8 = 21 := by decide
    rw [e]
    have h1 : (8 : Nat) ^ (d - 1) < 8 ^ 43 :=
      lt_of_le_of_lt hd (lt_of_lt_of_le hm (by norm_num))
    have h2 := (Nat.pow_lt_pow_iff_right (a := 8) (by omega)).mp h1
    omega
  · have e : u64_max_representable_digits 16 = 16 := by decide
    rw [e]
    have h1 : (16 : Nat) ^ (d - 1) < 16 ^ 32 :=
      lt_of_le_of_lt hd (lt_of_lt_of_le hm (by norm_num))
    have h2 := (Nat.pow_lt_pow_iff_right (a := 16) (by omega)).mp h1
    omega
  · have e : u64_max_representable_digits 32 = 12 := by decide
    rw [e]
    have h1 : (32 : Nat) ^ (d - 1) < 32 ^ 26 :=
      lt_of_le_of_lt hd (lt_of_lt_of_le hm (by norm_num))
    have h2 := (Nat.pow_lt_pow_iff_right (a := 32) (by omega)).mp h1
    omega
/-- The power-of-two format path that enters the loop with
`first_digit = true` (no separate head chunk, charconv_ext.hpp:383-385). -/
theorem tc_loop_entry_spec {b g maxD bits mask space x s jm : Nat}
    (h2 : 2 ≤ b) (h36 : b ≤ 36) (hg : b = 2 ^ g) (hg1 : 1 ≤ g)
    (hmaxD : maxD = u64_max_representable_digits b)
    (hbits : bits = g * maxD) (hmask : mask = 2 ^ bits - 1)
    (hs : s = jm * bits) (hjm : jm + 1 ≤ 4)
    (hxlt : x < 2 ^ ((jm + 1) * bits)) (hxge : 2 ^ (jm * bits) ≤ x)
    (mem : Nat → Char) (ws : List Nat) (pos : Nat)
    (hsp : pos + (jm + 1) * maxD ≤ space) :
    ∃ r : TCResult,
      tc_pow2_loop x b space maxD bits mask 4 mem ws pos s true = r ∧
      r.ec = .ok ∧
      (∀ i, i < pos → r.mem i = mem i) ∧
      pos < r.ptr ∧ r.ptr ≤ pos + (jm + 1) * maxD ∧
      (∀ c ∈ readList r.mem pos (r.ptr - pos), stdIsDigit b c = true) ∧
      listVal b (readList r.mem pos (r.ptr - pos)) = x ∧
      (∃ c0 t0, readList r.mem pos (r.ptr - pos) = c0 :: t0 ∧ c0 ≠ '0') ∧
      b ^ (r.ptr - pos - 1) ≤ x := by
  subst hs
  obtain ⟨r, hr, hec, hframe, _, hptrt, hlo, hhi, hvalid, hval, hhead⟩ :=
    tc_pow2_loop_fmt h2 h36 hg hg1 hmaxD hbits hmask 4 jm mem pos true ws
      (by omega) hsp
  have hptr := hptrt rfl
  have hbp : (2 : Nat) ^ (jm * bits) > 0 := Nat.two_pow_pos _
  have hpiece_eq : x >>> (jm * bits) &&& mask = x / 2 ^ (jm * bits) := by
    rw [hmask, Nat.and_pow_two_sub_one_eq_mod, Nat.shiftRight_eq_div_pow]
    apply Nat.mod_eq_of_lt
    rw [Nat.div_lt_iff_lt_mul hbp]
    calc x < 2 ^ ((jm + 1) * bits) := hxlt
      _ = 2 ^ bits * 2 ^ (jm * bits) := by
          rw [← pow_add]
          congr 1
          ring
  have hpiece1 : 1 ≤ x / 2 ^ (jm * bits) := by
    rw [Nat.le_div_iff_mul_le hbp]
    omega
  have hmaxD2 : 2 ≤ maxD := by
    rw [hmaxD]; exact (mrd_pow_le b h2 h36).2.2
  have hpow_le : b ^ maxD ≤ 2 ^ 64 := by
    rw [hmaxD]; exact (mrd_pow_le b h2 h36).1
  have hpmd : b ^ maxD = 2 ^ bits := by
    rw [hg, ← pow_mul, hbits]
  have hpieceB : x / 2 ^ (jm * bits) < b ^ 130 := by
    have h1 : x / 2 ^ (jm * bits) < 2 ^ bits := by
      rw [Nat.div_lt_iff_lt_mul hbp]
      calc x < 2 ^ ((jm + 1) * bits) := hxlt
        _ = 2 ^ bits * 2 ^ (jm * bits) := by
            rw [← pow_add]
            congr 1
            ring
    calc x / 2 ^ (jm * bits) < 2 ^ bits := h1
      _ = b ^ maxD := hpmd.symm
      _ ≤ b ^ 130 := Nat.pow_le_pow_right (by omega) (by
          have h3 : maxD * 1 ≤ maxD * g := Nat.mul_le_mul_left maxD hg1
          have h4 : b ^ maxD ≤ 2 ^ 64 := hpow_le
          have h5 : 2 ^ maxD ≤ b ^ maxD :=
            Nat.pow_le_pow_left (by omega) maxD
          have h6 : (2 : Nat) ^ maxD ≤ 2 ^ 64 := le_trans h5 h4
          exact le_trans ((Nat.pow_le_pow_iff_right (by omega)).mp h6)
            (by omega))
  obtain ⟨c0, t0, hrepr, hc0, _⟩ :=
    stdRepr_head_ne_zero h2 h36 hpiece1 hpieceB
  have hhead2 := hhead rfl
  rw [hpiece_eq, hrepr] at hhead2
  have hrdlen : (readList r.mem pos (r.ptr - pos)).length = r.ptr - pos :=
    readList_length _ _ _
  have hbpow : b ^ (jm * maxD) = 2 ^ (jm * bits) := by
    rw [hg, ← pow_mul, hbits]
    congr 1
    ring
  have hreplen1 : 1 ≤ (stdRepr b (x >>> (jm * bits) &&& mask)).length :=
    stdRepr_length_pos _ _
  refine ⟨r, hr, hec, hframe, by omega, hhi, hvalid, ?_, ?_, ?_⟩
  · rw [hval]
    exact Nat.mod_eq_of_lt hxlt
  · match hL : readList r.mem pos (r.ptr - pos) with
    | [] =>
        rw [hL] at hhead2
        exact absurd hhead2.symm (by simp)
    | c :: t =>
        rw [hL] at hhead2
        refine ⟨c, t, rfl, ?_⟩
        have : c = c0 := by
          simpa using hhead2
        rw [this]
        exact hc0
  · have hlen : r.ptr - pos - 1 =
        ((stdRepr b (x >>> (jm * bits) &&& mask)).length - 1) +
          jm * maxD := by
      omega
    rw [hlen, pow_add, hbpow]
    have h1 : b ^ ((stdRepr b (x >>> (jm * bits) &&& mask)).length - 1) ≤
        x / 2 ^ (jm * bits) := by
      have h2' := pow_pred_le_stdRepr h2 (x := x >>> (jm * bits) &&& mask)
        (by rw [hpiece_eq]; exact hpiece1)
      exact le_of_le_of_eq h2' hpiece_eq
    calc b ^ ((stdRepr b (x >>> (jm * bits) &&& mask)).length - 1) *
          2 ^ (jm * bits)
        ≤ x / 2 ^ (jm * bits) * 2 ^ (jm * bits) :=
          Nat.mul_le_mul_right _ h1
      _ ≤ x := Nat.div_mul_le_self x _
/-- The power-of-two format path that first writes a nonzero head chunk
(charconv_ext.hpp:336-350) and then runs the loop. -/
theorem tc_loop_head_spec {b g maxD bits mask space x s lb jm : Nat}
    (h2 : 2 ≤ b) (h36 : b ≤ 36) (hg : b = 2 ^ g) (hg1 : 1 ≤ g)
    (hmaxD : maxD = u64_max_representable_digits b)
    (hbits : bits = g * maxD) (hmask : mask = 2 ^ bits - 1)
    (hs : s = jm * bits) (hjm : jm + 1 ≤ 4)
    (hlb128 : lb + (jm + 1) * bits = 128) (hlb1 : 1 ≤ lb)
    (hhd1 : 1 ≤ x >>> ((jm + 1) * bits) &&& (2 ^ lb - 1))
    (hx : x < 2 ^ 128)
    (mem : Nat → Char) (pos : Nat) (hsp : pos + 128 ≤ space) :
    std_to_chars_u64 mem pos space
        (x >>> ((jm + 1) * bits) &&& (2 ^ lb - 1)) b =
      ⟨writeList mem pos
          (stdRepr b (x >>> ((jm + 1) * bits) &&& (2 ^ lb - 1))),
        (List.range
          (stdRepr b (x >>> ((jm + 1) * bits) &&& (2 ^ lb - 1))).length).map
          (pos + ·),
        pos + (stdRepr b (x >>> ((jm + 1) * bits) &&& (2 ^ lb - 1))).length,
        .ok⟩ ∧
    ∃ r : TCResult,
      tc_pow2_loop x b space maxD bits mask 4
        (writeList mem pos
          (stdRepr b (x >>> ((jm + 1) * bits) &&& (2 ^ lb - 1)))) []
        (pos + (stdRepr b (x >>> ((jm + 1) * bits) &&& (2 ^ lb - 1))).length)
        s false = r ∧
      r.ec = .ok ∧
      (∀ i, i < pos → r.mem i = mem i) ∧
      pos < r.ptr ∧ r.ptr ≤ pos + 128 ∧
      (∀ c ∈ readList r.mem pos (r.ptr - pos), stdIsDigit b c = true) ∧
      listVal b (readList r.mem pos (r.ptr - pos)) = x ∧
      (∃ c0 t0, readList r.mem pos (r.ptr - pos) = c0 :: t0 ∧ c0 ≠ '0') ∧
      b ^ (r.ptr - pos - 1) ≤ x := by
  subst hs
  have hEp : (0 : Nat) < 2 ^ ((jm + 1) * bits) := Nat.two_pow_pos _
  have hxdiv : x / 2 ^ ((jm + 1) * bits) < 2 ^ lb := by
    rw [Nat.div_lt_iff_lt_mul hEp]
    calc x < 2 ^ 128 := hx
      _ = 2 ^ lb * 2 ^ ((jm + 1) * bits) := by
          rw [← pow_add, hlb128]
  have hd_eq : x >>> ((jm + 1) * bits) &&& (2 ^ lb - 1) =
      x / 2 ^ ((jm + 1) * bits) := by
    rw [Nat.and_pow_two_sub_one_eq_mod, Nat.shiftRight_eq_div_pow]
    exact Nat.mod_eq_of_lt hxdiv
  have hhdlt : x >>> ((jm + 1) * bits) &&& (2 ^ lb - 1) < 2 ^ lb := by
    rw [hd_eq]
    exact hxdiv
  have hhdB : x >>> ((jm + 1) * bits) &&& (2 ^ lb - 1) < b ^ 130 := by
    calc x >>> ((jm + 1) * bits) &&& (2 ^ lb - 1) < 2 ^ lb := hhdlt
      _ ≤ 2 ^ 130 := Nat.pow_le_pow_right (by omega) (by omega)
      _ ≤ b ^ 130 := Nat.pow_le_pow_left (by omega) _
  have hhl : (stdRepr b (x >>> ((jm + 1) * bits) &&& (2 ^ lb - 1))).length ≤
      128 := by
    refine stdRepr_length_le h2 ?_ (by omega) (by omega)
    calc x >>> ((jm + 1) * bits) &&& (2 ^ lb - 1) < 2 ^ lb := hhdlt
      _ ≤ 2 ^ 128 := Nat.pow_le_pow_right (by omega) (by omega)
      _ ≤ b ^ 128 := Nat.pow_le_pow_left (by omega) _
  have hhl1 : 1 ≤
      (stdRepr b (x >>> ((jm + 1) * bits) &&& (2 ^ lb - 1))).length :=
    stdRepr_length_pos _ _
  have hpred : b ^
      ((stdRepr b (x >>> ((jm + 1) * bits) &&& (2 ^ lb - 1))).length - 1) ≤
      x >>> ((jm + 1) * bits) &&& (2 ^ lb - 1) :=
    pow_pred_le_stdRepr h2 hhd1
  have hghl : g *
      ((stdRepr b (x >>> ((jm + 1) * bits) &&& (2 ^ lb - 1))).length - 1) <
      lb := by
    have t1 : 2 ^ (g *
        ((stdRepr b (x >>> ((jm + 1) * bits) &&& (2 ^ lb - 1))).length - 1))
        < 2 ^ lb := by
      calc 2 ^ (g * ((stdRepr b
            (x >>> ((jm + 1) * bits) &&& (2 ^ lb - 1))).length - 1))
          = b ^ ((stdRepr b
            (x >>> ((jm + 1) * bits) &&& (2 ^ lb - 1))).length - 1) := by
            rw [hg, ← pow_mul]
        _ ≤ x >>> ((jm + 1) * bits) &&& (2 ^ lb - 1) := hpred
        _ < 2 ^ lb := hhdlt
    exact (Nat.pow_lt_pow_iff_right (by omega)).mp t1
  have hS : (stdRepr b (x >>> ((jm + 1) * bits) &&& (2 ^ lb - 1))).length +
      (jm + 1) * maxD ≤ 128 := by
    have e1 : g * (stdRepr b
        (x >>> ((jm + 1) * bits) &&& (2 ^ lb - 1))).length ≤
        g * ((stdRepr b
          (x >>> ((jm + 1) * bits) &&& (2 ^ lb - 1))).length - 1) + g := by
      have e2 : g * (stdRepr b
          (x >>> ((jm + 1) * bits) &&& (2 ^ lb - 1))).length ≤
          g * (((stdRepr b
            (x >>> ((jm + 1) * bits) &&& (2 ^ lb - 1))).length - 1) + 1) :=
        Nat.mul_le_mul_left g (by omega)
      rw [Nat.mul_add, Nat.mul_one] at e2
      exact e2
    have e3 : g * ((jm + 1) * maxD) = (jm + 1) * bits := by
      rw [hbits]
      ring
    have e4 : g * ((stdRepr b
        (x >>> ((jm + 1) * bits) &&& (2 ^ lb - 1))).length +
        (jm + 1) * maxD) =
        g * (stdRepr b
          (x >>> ((jm + 1) * bits) &&& (2 ^ lb - 1))).length +
        (jm + 1) * bits := by
      rw [Nat.mul_add, e3]
    by_contra hS'
    have h129 : 129 ≤ (stdRepr b
        (x >>> ((jm + 1) * bits) &&& (2 ^ lb - 1))).length +
        (jm + 1) * maxD := by omega
    have h5 : g * 129 ≤ g * ((stdRepr b
        (x >>> ((jm + 1) * bits) &&& (2 ^ lb - 1))).length +
        (jm + 1) * maxD) := Nat.mul_le_mul_left g h129
    omega
  have hstd := @std_to_chars_fits mem pos space
    (x >>> ((jm + 1) * bits) &&& (2 ^ lb - 1)) b (by omega)
  refine ⟨hstd, ?_⟩
  have hsp2 : (pos +
      (stdRepr b (x >>> ((jm + 1) * bits) &&& (2 ^ lb - 1))).length) +
      (jm + 1) * maxD ≤ space := by omega
  obtain ⟨r, hr, hec, hframe, hptrf, _, hlo, hhi, hvalid, hval, _⟩ :=
    tc_pow2_loop_fmt h2 h36 hg hg1 hmaxD hbits hmask 4 jm
      (writeList mem pos
        (stdRepr b (x >>> ((jm + 1) * bits) &&& (2 ^ lb - 1))))
      (pos +
        (stdRepr b (x >>> ((jm + 1) * bits) &&& (2 ^ lb - 1))).length)
      false [] (by omega) hsp2
  have hptr := hptrf rfl
  have htotal : r.ptr - pos =
      (stdRepr b (x >>> ((jm + 1) * bits) &&& (2 ^ lb - 1))).length +
        (jm + 1) * maxD := by omega
  have h2side : r.ptr - (pos +
      (stdRepr b (x >>> ((jm + 1) * bits) &&& (2 ^ lb - 1))).length) =
      (jm + 1) * maxD := by omega
  rw [h2side] at hvalid hval
  have hhead_read : readList r.mem pos
      (stdRepr b (x >>> ((jm + 1) * bits) &&& (2 ^ lb - 1))).length =
      stdRepr b (x >>> ((jm + 1) * bits) &&& (2 ^ lb - 1)) := by
    rw [@readList_congr _ (writeList mem pos
      (stdRepr b (x >>> ((jm + 1) * bits) &&& (2 ^ lb - 1)))) _ _
      (fun i hi => hframe (pos + i) (by omega))]
    exact readList_writeList _ _ _
  have hbpow : b ^ ((jm + 1) * maxD) = 2 ^ ((jm + 1) * bits) := by
    rw [hg, ← pow_mul, hbits]
    congr 1
    ring
  obtain ⟨c0, t0, hrepr, hc0, _⟩ := stdRepr_head_ne_zero h2 h36 hhd1 hhdB
  refine ⟨r, hr, hec, ?_, by omega, by omega, ?_, ?_, ?_, ?_⟩
  · intro i hi
    rw [hframe i (by omega), writeList_lt hi]
  · rw [htotal, readList_split, hhead_read]
    intro c hc
    rcases List.mem_append.mp hc with hc | hc
    · exact stdRepr_all_valid h2 h36 c hc
    · exact hvalid c hc
  · rw [htotal, readList_split, hhead_read, listVal_append,
      readList_length, hval,
      listVal_stdRepr h2 h36 hhdB, hbpow, hd_eq,
      Nat.mul_comm (x / 2 ^ ((jm + 1) * bits)) (2 ^ ((jm + 1) * bits))]
    exact Nat.div_add_mod x _
  · rw [htotal, readList_split, hhead_read, hrepr, List.cons_append]
    exact ⟨c0, _, rfl, hc0⟩
  · have hlen : r.ptr - pos - 1 =
        ((stdRepr b (x >>> ((jm + 1) * bits) &&& (2 ^ lb - 1))).length - 1)
          + (jm + 1) * maxD := by omega
    rw [hlen, pow_add, hbpow]
    calc b ^ ((stdRepr b
          (x >>> ((jm + 1) * bits) &&& (2 ^ lb - 1))).length - 1) *
          2 ^ ((jm + 1) * bits)
        ≤ x / 2 ^ ((jm + 1) * bits) * 2 ^ ((jm + 1) * bits) := by
          refine Nat.mul_le_mul_right _ ?_
          rw [← hd_eq]
          exact hpred
      _ ≤ x := Nat.div_mul_le_self x _
/-- The `x ≤ uint64 max` fast path of `to_chars` just delegates to the
64-bit `std::to_chars` (charconv_ext.hpp:311-314). -/
theorem to_chars_fast_spec {b x : Nat} (h2 : 2 ≤ b) (h36 : b ≤ 36)
    (hx64 : x ≤ 2 ^ 64 - 1) (mem : Nat → Char) (pos space : Nat)
    (hsp : pos + 128 ≤ space) :
    ∃ r : TCResult, std_to_chars_u64 mem pos space x b = r ∧
      r.ec = .ok ∧
      (∀ i, i < pos → r.mem i = mem i) ∧
      pos < r.ptr ∧ r.ptr ≤ pos + 128 ∧
      (∀ c ∈ readList r.mem pos (r.ptr - pos), stdIsDigit b c = true) ∧
      listVal b (readList r.mem pos (r.ptr - pos)) = x ∧
      (x = 0 → readList r.mem pos (r.ptr - pos) = ['0']) ∧
      (1 ≤ x → (∃ c0 t0, readList r.mem pos (r.ptr - pos) = c0 :: t0 ∧
        c0 ≠ '0') ∧ b ^ (r.ptr - pos - 1) ≤ x) := by
  have hxB : x < b ^ 128 := by
    calc x < 2 ^ 64 := by omega
      _ ≤ 2 ^ 128 := Nat.pow_le_pow_right (by omega) (by omega)
      _ ≤ b ^ 128 := Nat.pow_le_pow_left (by omega) _
  have hxB130 : x < b ^ 130 :=
    lt_of_lt_of_le hxB (Nat.pow_le_pow_right (by omega) (by omega))
  have hlen : (stdRepr b x).length ≤ 128 :=
    stdRepr_length_le h2 hxB (by omega) (by omega)
  have hlen1 : 1 ≤ (stdRepr b x).length := stdRepr_length_pos _ _
  have hstd := @std_to_chars_fits mem pos space x b (by omega)
  refine ⟨_, hstd, rfl, fun i hi => writeList_lt hi, ?_, ?_, ?_, ?_, ?_, ?_⟩
  · dsimp only
    omega
  · dsimp only
    omega
  · dsimp only
    rw [Nat.add_sub_cancel_left, readList_writeList]
    exact stdRepr_all_valid h2 h36
  · dsimp only
    rw [Nat.add_sub_cancel_left, readList_writeList]
    exact listVal_stdRepr h2 h36 hxB130
  · intro h0
    subst h0
    dsimp only
    rw [Nat.add_sub_cancel_left, readList_writeList, stdRepr, if_pos rfl]
  · intro h1
    obtain ⟨c0, t0, heq, hne, _⟩ := stdRepr_head_ne_zero h2 h36 h1 hxB130
    constructor
    · dsimp only
      rw [Nat.add_sub_cancel_left, readList_writeList]
      exact ⟨c0, t0, heq, hne⟩
    · dsimp only
      have e : pos + (stdRepr b x).length - pos - 1 =
          (stdRepr b x).length - 1 := by omega
      rw [e]
      exact pow_pred_le_stdRepr h2 h1
set_option maxHeartbeats 1000000 in
/-- Full correctness of `to_chars` for `uint128_t` into a sufficiently
large buffer: it succeeds, touches nothing below `pos`, and the characters
written at `[pos, ptr)` are valid digits for the base, spell exactly `x`,
start with a nonzero digit when `1 ≤ x` (with `b ^ (len - 1) ≤ x`), and are
the single character 0 when `x = 0`. The fuel hypothesis is met by every
caller (all pass fuel 130 and `x < 2 ^ 128`). -/
theorem to_chars_u128_spec {b : Nat} (h2 : 2 ≤ b) (h36 : b ≤ 36) :
    ∀ fuel x mem pos space, x < 2 ^ 128 → x < 2 ^ (64 + 58 * fuel) →
      pos + 128 ≤ space →
      ∃ r : TCResult, to_chars_u128 b (fuel + 1) mem pos space x = r ∧
        r.ec = .ok ∧
        (∀ i, i < pos → r.mem i = mem i) ∧
        pos < r.ptr ∧ r.ptr ≤ pos + 128 ∧
        (∀ c ∈ readList r.mem pos (r.ptr - pos), stdIsDigit b c = true) ∧
        listVal b (readList r.mem pos (r.ptr - pos)) = x ∧
        (x = 0 → readList r.mem pos (r.ptr - pos) = ['0']) ∧
        (1 ≤ x → (∃ c0 t0, readList r.mem pos (r.ptr - pos) = c0 :: t0 ∧
          c0 ≠ '0') ∧ b ^ (r.ptr - pos - 1) ≤ x) := by
  intro fuel
  induction fuel with
  | zero =>
      intro x mem pos space hx hxf hsp
      have hx64 : x ≤ 2 ^ 64 - 1 := by
        have : (2 : Nat) ^ (64 + 58 * 0) = 2 ^ 64 := by norm_num
        rw [this] at hxf
        omega
      simp only [to_chars_u128, eq_true hx64, if_true]
      exact to_chars_fast_spec h2 h36 hx64 mem pos space hsp
  | succ n ih =>
      intro x mem pos space hx hxf hsp
      by_cases hx64 : x ≤ 2 ^ 64 - 1
      · simp only [to_chars_u128, eq_true hx64, if_true]
        exact to_chars_fast_spec h2 h36 hx64 mem pos space hsp
      · have hxge : 2 ^ 64 ≤ x := by omega
        have hps : ¬(pos = space) := by omega
        simp only [to_chars_u128, eq_false hx64, if_false,
          eq_false hps, if_false]
        by_cases hpw : b &&& (b - 1) = 0
        · simp only [eq_true hpw, if_true]
          rcases pow2_base_cases b h2 h36 hpw with rfl | rfl | rfl | rfl | rfl
          · have e2 : u64_max_representable_digits 2 = 64 := by decide
            have e3 : countr_zero_u64 (u64_max_power 2) = 64 := by decide
            simp only [e2, e3]
            norm_num
            obtain ⟨r, hr, hec, hframe, hlo, hhi, hvalid, hval, hhead,
              hpow⟩ :=
              @tc_loop_entry_spec 2 1 64 64 18446744073709551615 space x 64 1
                (by norm_num) (by norm_num) (by norm_num) (by norm_num)
                (by decide) (by norm_num) (by norm_num) (by norm_num)
                (by norm_num)
                (by
                  have e : ((1 + 1) * 64 : Nat) = 128 := by norm_num
                  rw [e]
                  exact hx)
                (by
                  have e : ((1 : Nat) * 64 : Nat) = 64 := by norm_num
                  rw [e]
                  exact hxge)
                mem [] pos (by omega)
            rw [hr]
            obtain ⟨c0, t0, ha, hb⟩ := hhead
            exact ⟨hec, hframe, hlo, by omega, hvalid, hval,
              fun h0 => absurd h0 (by omega),
              fun _ => ⟨⟨c0, ⟨t0, ha⟩, hb⟩, hpow⟩⟩
          · have e2 : u64_max_representable_digits 4 = 32 := by decide
            have e3 : countr_zero_u64 (u64_max_power 4) = 64 := by decide
            simp only [e2, e3]
            norm_num
            obtain ⟨r, hr, hec, hframe, hlo, hhi, hvalid, hval, hhead,
              hpow⟩ :=
              @tc_loop_entry_spec 4 2 32 64 18446744073709551615
                space x 64 1
                (by norm_num) (by norm_num) (by norm_num) (by norm_num)
                (by decide) (by norm_num) (by norm_num) (by norm_num)
                (by norm_num)
                (by
                  have e : ((1 + 1) * 64 : Nat) = 128 := by norm_num
                  rw [e]
                  exact hx)
                (by
                  have e : ((1 : Nat) * 64 : Nat) = 64 := by norm_num
                  rw [e]
                  exact hxge)
                mem [] pos (by omega)
            rw [hr]
            obtain ⟨c0, t0, ha, hb⟩ := hhead
            exact ⟨hec, hframe, hlo, by omega, hvalid, hval,
              fun h0 => absurd h0 (by omega),
              fun _ => ⟨⟨c0, ⟨t0, ha⟩, hb⟩, hpow⟩⟩
          · have e2 : u64_max_representable_digits 8 = 21 := by decide
            have e3 : countr_zero_u64 (u64_max_power 8) = 63 := by decide
            simp only [e2, e3]
            norm_num
            by_cases hhd : x >>> 126 &&& 3 = 0
            · simp only [eq_true hhd, if_true]
              have h3 : x >>> 126 &&& 3 = x / 2 ^ 126 % 2 ^ 2 := by
                rw [show (3 : Nat) = 2 ^ 2 - 1 from rfl,
                  Nat.and_pow_two_sub_one_eq_mod, Nat.shiftRight_eq_div_pow]
              have hdiv : x / 2 ^ 126 < 2 ^ 2 := by
                rw [Nat.div_lt_iff_lt_mul (Nat.two_pow_pos 126)]
                calc x < 2 ^ 128 := hx
                  _ = 2 ^ 2 * 2 ^ 126 := by norm_num
              have hx126 : x < 2 ^ 126 := by
                by_contra hcon
                have h1 : 1 ≤ x / 2 ^ 126 := by
                  rw [Nat.le_div_iff_mul_le (Nat.two_pow_pos 126)]
                  omega
                rw [h3, Nat.mod_eq_of_lt hdiv] at hhd
                omega
              obtain ⟨r, hr, hec, hframe, hlo, hhi, hvalid, hval, hhead,
                hpow⟩ :=
                @tc_loop_entry_spec 8 3 21 63 9223372036854775807 space x 63 1
                  (by norm_num) (by norm_num) (by norm_num) (by norm_num)
                  (by decide) (by norm_num) (by norm_num) (by norm_num)
                  (by norm_num)
                  (by
                    have e : ((1 + 1) * 63 : Nat) = 126 := by norm_num
                    rw [e]
                    exact hx126)
                  (by
                    have e : ((1 : Nat) * 63 : Nat) = 63 := by norm_num
                    rw [e]
                    omega)
                  mem [] pos (by omega)
              rw [hr]
              obtain ⟨c0, t0, ha, hb⟩ := hhead
              exact ⟨hec, hframe, hlo, by omega, hvalid, hval,
                fun h0 => absurd h0 (by omega),
                fun _ => ⟨⟨c0, ⟨t0, ha⟩, hb⟩, hpow⟩⟩
            · simp only [eq_false hhd, if_false]
              have hhd1 : 1 ≤ x >>> ((1 + 1) * 63) &&& (2 ^ 2 - 1) := by
                have e : ((1 + 1) * 63 : Nat) = 126 := by norm_num
                rw [e, show (2 : Nat) ^ 2 - 1 = 3 from rfl]
                omega
              obtain ⟨hstd_eq, r, hr, hec, hframe, hlo, hhi, hvalid, hval,
                hhead, hpow⟩ :=
                @tc_loop_head_spec 8 3 21 63 9223372036854775807 space x 63
                  2 1
                  (by norm_num) (by norm_num) (by norm_num) (by norm_num)
                  (by decide) (by norm_num) (by norm_num) (by norm_num)
                  (by norm_num) (by norm_num) (by norm_num) hhd1 hx mem pos
                  (by omega)
              norm_num at hstd_eq hr
              rw [hstd_eq, if_pos rfl]
              simp only
              rw [hr]
              obtain ⟨c0, t0, ha, hb⟩ := hhead
              exact ⟨hec, hframe, hlo, hhi, hvalid, hval,
                fun h0 => absurd h0 (by omega),
                fun _ => ⟨⟨c0, ⟨t0, ha⟩, hb⟩, hpow⟩⟩
          · have e2 : u64_max_representable_digits 16 = 16 := by decide
            have e3 : countr_zero_u64 (u64_max_power 16) = 64 := by decide
            simp only [e2, e3]
            norm_num
            obtain ⟨r, hr, hec, hframe, hlo, hhi, hvalid, hval, hhead,
              hpow⟩ :=
              @tc_loop_entry_spec 16 4 16 64 18446744073709551615
                space x 64 1
                (by norm_num) (by norm_num) (by norm_num) (by norm_num)
                (by decide) (by norm_num) (by norm_num) (by norm_num)
                (by norm_num)
                (by
                  have e : ((1 + 1) * 64 : Nat) = 128 := by norm_num
                  rw [e]
                  exact hx)
                (by
                  have e : ((1 : Nat) * 64 : Nat) = 64 := by norm_num
                  rw [e]
                  exact hxge)
                mem [] pos (by omega)
            rw [hr]
            obtain ⟨c0, t0, ha, hb⟩ := hhead
            exact ⟨hec, hframe, hlo, by omega, hvalid, hval,
              fun h0 => absurd h0 (by omega),
              fun _ => ⟨⟨c0, ⟨t0, ha⟩, hb⟩, hpow⟩⟩
          · have e2 : u64_max_representable_digits 32 = 12 := by decide
            have e3 : countr_zero_u64 (u64_max_power 32) = 60 := by decide
            simp only [e2, e3]
            norm_num
            by_cases hhd : x >>> 120 &&& 255 = 0
            · simp only [eq_true hhd, if_true]
              have h3 : x >>> 120 &&& 255 = x / 2 ^ 120 % 2 ^ 8 := by
                rw [show (255 : Nat) = 2 ^ 8 - 1 from rfl,
                  Nat.and_pow_two_sub_one_eq_mod, Nat.shiftRight_eq_div_pow]
              have hdiv : x / 2 ^ 120 < 2 ^ 8 := by
                rw [Nat.div_lt_iff_lt_mul (Nat.two_pow_pos 120)]
                calc x < 2 ^ 128 := hx
                  _ = 2 ^ 8 * 2 ^ 120 := by norm_num
              have hx120 : x < 2 ^ 120 := by
                by_contra hcon
                have h1 : 1 ≤ x / 2 ^ 120 := by
                  rw [Nat.le_div_iff_mul_le (Nat.two_pow_pos 120)]
                  omega
                rw [h3, Nat.mod_eq_of_lt hdiv] at hhd
                omega
              obtain ⟨r, hr, hec, hframe, hlo, hhi, hvalid, hval, hhead,
                hpow⟩ :=
                @tc_loop_entry_spec 32 5 12 60 1152921504606846975 space x
                  60 1
                  (by norm_num) (by norm_num) (by norm_num) (by norm_num)
                  (by decide) (by norm_num) (by norm_num) (by norm_num)
                  (by norm_num)
                  (by
                    have e : ((1 + 1) * 60 : Nat) = 120 := by norm_num
                    rw [e]
                    exact hx120)
                  (by
                    have e : ((1 : Nat) * 60 : Nat) = 60 := by norm_num
                    rw [e]
                    omega)
                  mem [] pos (by omega)
              rw [hr]
              obtain ⟨c0, t0, ha, hb⟩ := hhead
              exact ⟨hec, hframe, hlo, by omega, hvalid, hval,
                fun h0 => absurd h0 (by omega),
                fun _ => ⟨⟨c0, ⟨t0, ha⟩, hb⟩, hpow⟩⟩
            · simp only [eq_false hhd, if_false]
              have hhd1 : 1 ≤ x >>> ((1 + 1) * 60) &&& (2 ^ 8 - 1) := by
                have e : ((1 + 1) * 60 : Nat) = 120 := by norm_num
                rw [e, show (2 : Nat) ^ 8 - 1 = 255 from rfl]
                omega
              obtain ⟨hstd_eq, r, hr, hec, hframe, hlo, hhi, hvalid, hval,
                hhead, hpow⟩ :=
                @tc_loop_head_spec 32 5 12 60 1152921504606846975 space x 60
                  8 1
                  (by norm_num) (by norm_num) (by norm_num) (by norm_num)
                  (by decide) (by norm_num) (by norm_num) (by norm_num)
                  (by norm_num) (by norm_num) (by norm_num) hhd1 hx mem pos
                  (by omega)
              norm_num at hstd_eq hr
              rw [hstd_eq, if_pos rfl]
              simp only
              rw [hr]
              obtain ⟨c0, t0, ha, hb⟩ := hhead
              exact ⟨hec, hframe, hlo, hhi, hvalid, hval,
                fun h0 => absurd h0 (by omega),
                fun _ => ⟨⟨c0, ⟨t0, ha⟩, hb⟩, hpow⟩⟩
        · simp only [eq_false hpw, if_false]
          have hMf := max_power_facts b h2 h36 hpw
          have hmp0 : 0 < u64_max_power b := by omega
          have hmrd := mrd_pow_le b h2 h36
          have hmaxD64 : u64_max_representable_digits b ≤ 64 := by
            have h5 : 2 ^ u64_max_representable_digits b ≤
                b ^ u64_max_representable_digits b :=
              Nat.pow_le_pow_left (by omega) _
            exact (Nat.pow_le_pow_iff_right (by omega)).mp
              (le_trans h5 hmrd.1)
          have hd1 : x / u64_max_power b ≤ x / 2 ^ 58 :=
            Nat.div_le_div_left (le_of_lt hMf.2.1) (Nat.two_pow_pos 58)
          have hd2 : x / 2 ^ 58 < 2 ^ (64 + 58 * n) := by
            rw [Nat.div_lt_iff_lt_mul (Nat.two_pow_pos 58)]
            calc x < 2 ^ (64 + 58 * (n + 1)) := hxf
              _ = 2 ^ (64 + 58 * n) * 2 ^ 58 := by
                  rw [show 64 + 58 * (n + 1) = 64 + 58 * n + 58 from by ring,
                    pow_add]
          have hxf' : x / u64_max_power b < 2 ^ (64 + 58 * n) :=
            lt_of_le_of_lt hd1 hd2
          have hmp_le_x : u64_max_power b ≤ x :=
            le_trans (le_of_lt hMf.2.2) hxge
          have hup1 : 1 ≤ x / u64_max_power b :=
            (Nat.one_le_div_iff hmp0).mpr hmp_le_x
          obtain ⟨rup, hup, upec, upframe, uplo, uphi, upvalid, upval,
            upzero, uppos⟩ :=
            ih (x / u64_max_power b) mem pos space
              (lt_of_le_of_lt (Nat.div_le_self x _) hx) hxf' hsp
          obtain ⟨⟨c0, t0, upheq, upc0⟩, uppow⟩ := uppos hup1
          have hA1 : b ^ ((rup.ptr - pos - 1) +
              u64_max_representable_digits b) ≤ x := by
            rw [pow_add, ← hMf.1]
            calc b ^ (rup.ptr - pos - 1) * u64_max_power b
                ≤ x / u64_max_power b * u64_max_power b :=
                  Nat.mul_le_mul_right _ uppow
              _ ≤ x := Nat.div_mul_le_self x _
          have hsum : (rup.ptr - pos - 1) +
              u64_max_representable_digits b < 128 := by
            have hA2 : b ^ ((rup.ptr - pos - 1) +
                u64_max_representable_digits b) < b ^ 128 :=
              lt_of_le_of_lt hA1 (lt_of_lt_of_le hx
                (Nat.pow_le_pow_left (by omega) _))
            exact (Nat.pow_lt_pow_iff_right (by omega)).mp hA2
          have hlv : x % u64_max_power b <
              b ^ u64_max_representable_digits b := by
            rw [← hMf.1]
            exact Nat.mod_lt _ hmp0
          have hlvB : x % u64_max_power b < b ^ 130 :=
            lt_of_lt_of_le hlv (Nat.pow_le_pow_right (by omega) (by omega))
          have hlowlen : (stdRepr b (x % u64_max_power b)).length ≤
              u64_max_representable_digits b :=
            stdRepr_length_le h2 hlv (by omega) (by omega)
          have hsp_low : rup.ptr +
              (stdRepr b (x % u64_max_power b)).length ≤ space := by omega
          have hstdlow := @std_to_chars_fits rup.mem rup.ptr space
            (x % u64_max_power b) b hsp_low
          simp only [to_chars_u128, eq_false hps, eq_false hpw, if_false]
            at hup
          rw [hup]
          simp only [upec, ne_eq, not_true_eq_false, if_false]
          rw [hstdlow]
          simp only [ne_eq, not_true_eq_false, if_false,
            Nat.add_sub_cancel_left]
          have hdst : rup.ptr + u64_max_representable_digits b -
              (stdRepr b (x % u64_max_power b)).length =
              rup.ptr + (u64_max_representable_digits b -
                (stdRepr b (x % u64_max_power b)).length) := by omega
          rw [hdst]
          have hpad := pad_readList rup.mem rup.ptr
            (u64_max_representable_digits b -
              (stdRepr b (x % u64_max_power b)).length)
            (stdRepr b (x % u64_max_power b))
          rw [show (u64_max_representable_digits b -
              (stdRepr b (x % u64_max_power b)).length) +
              (stdRepr b (x % u64_max_power b)).length =
              u64_max_representable_digits b from by omega] at hpad
          have hbelow : ∀ i, i < rup.ptr →
              memFillZero
                (memCopy (writeList rup.mem rup.ptr
                  (stdRepr b (x % u64_max_power b))) rup.ptr
                  (rup.ptr + (u64_max_representable_digits b -
                    (stdRepr b (x % u64_max_power b)).length))
                  (stdRepr b (x % u64_max_power b)).length)
                rup.ptr
                (u64_max_representable_digits b -
                  (stdRepr b (x % u64_max_power b)).length) i =
              rup.mem i := by
            intro i hi
            rw [memFillZero, writeList_lt hi, memCopy,
              writeList_lt (by omega), writeList_lt hi]
          have hupseg : readList
              (memFillZero
                (memCopy (writeList rup.mem rup.ptr
                  (stdRepr b (x % u64_max_power b))) rup.ptr
                  (rup.ptr + (u64_max_representable_digits b -
                    (stdRepr b (x % u64_max_power b)).length))
                  (stdRepr b (x % u64_max_power b)).length)
                rup.ptr
                (u64_max_representable_digits b -
                  (stdRepr b (x % u64_max_power b)).length))
              pos (rup.ptr - pos) = readList rup.mem pos (rup.ptr - pos) :=
            readList_congr (fun i hi => hbelow (pos + i) (by omega))
          have htotal : rup.ptr + u64_max_representable_digits b - pos =
              (rup.ptr - pos) + u64_max_representable_digits b := by omega
          have hbase : pos + (rup.ptr - pos) = rup.ptr := by omega
          refine ⟨_, rfl, rfl, ?_, ?_, ?_, ?_, ?_, ?_, ?_⟩
          · intro i hi
            dsimp only
            rw [hbelow i (by omega), upframe i hi]
          · dsimp only
            omega
          · dsimp only
            omega
          · dsimp only
            rw [htotal, readList_split, hbase, hupseg, hpad]
            intro c hc
            rcases List.mem_append.mp hc with hc | hc
            · exact upvalid c hc
            · rcases List.mem_append.mp hc with hc | hc
              · rcases List.eq_of_mem_replicate hc with rfl
                exact stdIsDigit_zero_char h2
              · exact stdRepr_all_valid h2 h36 c hc
          · dsimp only
            rw [htotal, readList_split, hbase, hupseg, hpad, listVal_append,
              List.length_append, List.length_replicate]
            rw [upval,
              listVal_replicate_zero_append, listVal_stdRepr h2 h36 hlvB,
              show u64_max_representable_digits b -
                (stdRepr b (x % u64_max_power b)).length +
                (stdRepr b (x % u64_max_power b)).length =
                u64_max_representable_digits b from by omega,
              ← hMf.1, Nat.mul_comm (x / u64_max_power b) (u64_max_power b)]
            exact Nat.div_add_mod x _
          · intro h0
            exact absurd h0 (by omega)
          · intro _
            dsimp only
            constructor
            · rw [htotal, readList_split, hbase, hupseg, hpad, upheq,
                List.cons_append]
              exact ⟨c0, _, rfl, upc0⟩
            · have hexp : rup.ptr + u64_max_representable_digits b -
                  pos - 1 = (rup.ptr - pos - 1) +
                  u64_max_representable_digits b := by omega
              rw [hexp]
              exact hA1


/-- A successful signed parse of a plain (lowercase, in-range) digit string:
`from_chars(int128_t&)` takes the unsigned path (charconv_ext.hpp:278-287),
the sign-bit test passes, and the value converts unchanged. -/
theorem from_chars_i128_nonneg {b v : Nat} {ds : List Char}
    (h2 : 2 ≤ b) (h36 : b ≤ 36) (hne : ds ≠ [])
    (hall : ∀ c ∈ ds, stdIsDigit b c = true)
    (hval : listVal b ds = v) (hv : v < 2 ^ 127)
    (hlen3 : b &&& (b - 1) = 0 →
      ds.length ≤ 3 * u64_max_representable_digits b) :
    from_chars_i128 ds b = ⟨ds.length, .ok, some (v : Int)⟩ := by
  rcases ds with _ | ⟨c, t⟩
  · exact absurd rfl hne
  · have hcm : c ≠ '-' :=
      stdIsDigit_ne_minus (hall c (List.mem_cons_self c t))
    have hu := from_chars_u128_exact h2 h36 (by simp) hall
      (by rw [hval]; omega) hlen3
    have hsh : v >>> 127 = 0 := by
      rw [Nat.shiftRight_eq_div_pow]
      exact Nat.div_eq_of_lt hv
    rw [hval] at hu
    simp only [from_chars_i128, eq_true hcm, if_true, hu, Option.getD_some,
      hsh, ne_eq, not_true_eq_false, if_false]
    rw [toInt128, if_pos hv]

set_option maxRecDepth 4000 in
/-- A successful signed parse of `'-'` followed by in-range lowercase digits
(charconv_ext.hpp:288-306): the short spans go through the 64-bit
`std::from_chars`, the long spans through the unsigned 128-bit parse
followed by wrapping negation; both return `-magnitude` and consume
everything. -/
theorem from_chars_i128_neg {b m : Nat} {ds : List Char}
    (h2 : 2 ≤ b) (h36 : b ≤ 36) (hne : ds ≠ [])
    (hall : ∀ c ∈ ds, stdIsDigit b c = true)
    (hval : listVal b ds = m) (hm1 : 1 ≤ m) (hm : m ≤ 2 ^ 127)
    (hlen3 : b &&& (b - 1) = 0 →
      ds.length ≤ 3 * u64_max_representable_digits b) :
    from_chars_i128 ('-' :: ds) b = ⟨1 + ds.length, .ok, some (-(m : Int))⟩
    := by
  have hdsl : ds.length ≠ 0 := by
    intro h0
    exact hne (List.eq_nil_of_length_eq_zero h0)
  have hmrd := mrd_pow_le b h2 h36
  simp only [from_chars_i128, ne_eq, not_true_eq_false, if_false]
  by_cases hshort : ('-' :: ds).length + 1 ≤ u64_max_representable_digits b
  · simp only [eq_true hshort, if_true]
    have hshort2 : ds.length + 2 ≤ u64_max_representable_digits b := by
      have hlc : ('-' :: ds).length = ds.length + 1 := rfl
      omega
    have hlt : listVal b ds < b ^ ds.length :=
      listVal_lt_pow fun c hc => charVal_lt_of_stdIsDigit (hall c hc)
    have hpowle : b ^ ds.length ≤
        b ^ (u64_max_representable_digits b - 2) :=
      Nat.pow_le_pow_right (by omega) (by omega)
    have hsplit : b ^ (u64_max_representable_digits b - 2) * b ^ 2 =
        b ^ u64_max_representable_digits b := by
      rw [← pow_add]
      congr 1
      omega
    have h4 : 4 ≤ b ^ 2 := by
      calc (4 : Nat) = 2 ^ 2 := by norm_num
        _ ≤ b ^ 2 := Nat.pow_le_pow_left h2 2
    have hquad : b ^ (u64_max_representable_digits b - 2) * 4 ≤ 2 ^ 64 := by
      calc b ^ (u64_max_representable_digits b - 2) * 4
          ≤ b ^ (u64_max_representable_digits b - 2) * b ^ 2 :=
            Nat.mul_le_mul_left _ h4
        _ = b ^ u64_max_representable_digits b := hsplit
        _ ≤ 2 ^ 64 := hmrd.1
    have hm62 : m < 2 ^ 62 := by
      have h5 : m < b ^ (u64_max_representable_digits b - 2) := by
        rw [← hval]
        exact lt_of_lt_of_le hlt hpowle
      omega
    have hstdint : std_from_chars_int 64 ('-' :: ds) b =
        ⟨1 + ds.length, .ok, -(m : Int)⟩ := by
      simp only [std_from_chars_int, List.head?_cons, eq_self_iff_true,
        if_true, List.drop_succ_cons, List.drop_zero,
        List.takeWhile_eq_self_iff.mpr hall, hval, eq_false hdsl, if_false]
      rw [if_pos ⟨by omega, by omega⟩]
    rw [hstdint]
  · simp only [eq_false hshort, if_false]
    have hu := from_chars_u128_exact h2 h36 hne hall
      (by rw [hval]; omega) hlen3
    rw [hval] at hu
    simp only [List.drop_succ_cons, List.drop_zero, hu, Option.getD_some]
    rw [if_neg (by omega)]
    have he1 : (2 ^ 128 - m) % 2 ^ 128 = 2 ^ 128 - m :=
      Nat.mod_eq_of_lt (by omega)
    rw [he1, toInt128, if_neg (by omega)]
    congr 1
    congr 1
    omega
/-- `to_chars` for a negative `int128_t` (charconv_ext.hpp:415-434): a minus
sign followed by the minimal digits of the magnitude, through the 64-bit
`std::to_chars` for small magnitudes and the unsigned 128-bit formatter
otherwise. -/
theorem to_chars_i128_neg_spec {b : Nat} (h2 : 2 ≤ b) (h36 : b ≤ 36)
    (x : Int) (mem : Nat → Char) (pos space : Nat)
    (hxlo : -(2 ^ 127) ≤ x) (hxneg : x < 0) (hsp : pos + 129 ≤ space) :
    ∃ r : TCResult, to_chars_i128 mem pos space x b = r ∧ r.ec = .ok ∧
      (∀ i, i < pos → r.mem i = mem i) ∧
      ∃ ds, readList r.mem pos (r.ptr - pos) = '-' :: ds ∧
        r.ptr = pos + 1 + ds.length ∧ 1 ≤ ds.length ∧ ds.length ≤ 128 ∧
        (∀ c ∈ ds, stdIsDigit b c = true) ∧
        listVal b ds = x.natAbs ∧
        (∃ c0 t0, ds = c0 :: t0 ∧ c0 ≠ '0') ∧
        b ^ (ds.length - 1) ≤ x.natAbs := by
  have hm1 : 1 ≤ x.natAbs := by omega
  have hm127 : x.natAbs ≤ 2 ^ 127 := by omega
  have hmB : x.natAbs < b ^ 128 := by
    calc x.natAbs < 2 ^ 128 := by omega
      _ ≤ b ^ 128 := Nat.pow_le_pow_left (by omega) _
  have hmB130 : x.natAbs < b ^ 130 :=
    lt_of_lt_of_le hmB (Nat.pow_le_pow_right (by omega) (by omega))
  rw [to_chars_i128, if_neg (by omega)]
  by_cases hx63 : -(2 ^ 63) ≤ x
  · rw [if_pos hx63]
    have hrlen : (stdRepr b x.natAbs).length ≤ 128 :=
      stdRepr_length_le h2 hmB (by omega) (by omega)
    have hfit : pos + (['-'] ++ stdRepr b x.natAbs).length ≤ space := by
      rw [List.length_append]
      have : (['-'] : List Char).length = 1 := rfl
      omega
    rw [std_to_chars_i64, if_pos hxneg]
    rw [if_pos hfit]
    obtain ⟨c0, t0, hrepr, hc0, _⟩ :=
      stdRepr_head_ne_zero h2 h36 hm1 hmB130
    refine ⟨_, rfl, rfl, fun i hi => writeList_lt hi, stdRepr b x.natAbs,
      ?_, ?_, stdRepr_length_pos _ _, hrlen, stdRepr_all_valid h2 h36,
      listVal_stdRepr h2 h36 hmB130, ⟨c0, t0, hrepr, hc0⟩,
      pow_pred_le_stdRepr h2 hm1⟩
    · dsimp only
      rw [Nat.add_sub_cancel_left, readList_writeList]
      rfl
    · dsimp only
      rw [List.length_append]
      have : (['-'] : List Char).length = 1 := rfl
      omega
  · rw [if_neg hx63, if_neg (by omega)]
    have htn : (-x).toNat = x.natAbs := by omega
    obtain ⟨ru, hru, ruec, ruframe, rulo, ruhi, ruvalid, ruval, _,
      rupos⟩ :=
      to_chars_u128_spec h2 h36 129 (-x).toNat (writeList mem pos ['-'])
        (pos + 1) space (by omega) (by
          have h1 : (-x).toNat < 2 ^ 128 := by omega
          calc (-x).toNat < 2 ^ 128 := h1
            _ ≤ 2 ^ (64 + 58 * 129) := Nat.pow_le_pow_right (by omega)
              (by norm_num)) (by omega)
    obtain ⟨⟨c0, t0, ruheq, ruc0⟩, rupow⟩ := rupos (by omega)
    norm_num at hru
    rw [hru]
    have hminus : ru.mem pos = '-' := by
      rw [ruframe pos (by omega)]
      simp [writeList]
    have hone : readList ru.mem pos 1 = ['-'] := by
      simp [readList, List.range_succ, hminus]
    refine ⟨_, rfl, ruec, ?_, readList ru.mem (pos + 1) (ru.ptr - (pos + 1)),
      ?_, ?_, ?_, ?_, ?_, ?_, ?_, ?_⟩
    · intro i hi
      dsimp only
      rw [ruframe i (by omega), writeList_lt hi]
    · dsimp only
      rw [show ru.ptr - pos = 1 + (ru.ptr - (pos + 1)) from by omega,
        readList_split, hone]
      rfl
    · dsimp only
      rw [readList_length]
      omega
    · rw [readList_length]
      omega
    · rw [readList_length]
      omega
    · intro c hc
      exact ruvalid c hc
    · rw [← htn]
      exact ruval
    · exact ⟨c0, t0, ruheq, ruc0⟩
    · rw [readList_length, ← htn]
      exact rupow
/-- The output of the formatter satisfies the power-of-two parser's
`3 * maxDigits` length precondition. -/
theorem readback_len3 {b : Nat} (h2 : 2 ≤ b) (h36 : b ≤ 36) {v L : Nat}
    (hv : v < 2 ^ 128)
    (hzero : v = 0 → L = 1)
    (hpow : 1 ≤ v → b ^ (L - 1) ≤ v) :
    b &&& (b - 1) = 0 → L ≤ 3 * u64_max_representable_digits b := by
  intro hpw
  rcases Nat.eq_zero_or_pos v with h0 | h1
  · rw [hzero h0]
    have := (mrd_pow_le b h2 h36).2.2
    omega
  · exact pow2_len_le h2 h36 hpw (hpow h1) hv

/-! ## Claim C9 -/

/-- C9: for every base `b` in 2..36, `u64_max_representable_digits b` is the
largest `d` with `b ^ d ≤ 2 ^ 64`; in particular it is 64 for base 2, 21 for
base 8, 19 for base 10 and 16 for base 16. -/
theorem C9_u64_max_representable_digits (b : Nat) (h2 : 2 ≤ b)
    (h36 : b ≤ 36) :
    (b ^ u64_max_representable_digits b ≤ 2 ^ 64 ∧
      2 ^ 64 < b ^ (u64_max_representable_digits b + 1)) ∧
    u64_max_representable_digits 2 = 64 ∧
    u64_max_representable_digits 8 = 21 ∧
    u64_max_representable_digits 10 = 19 ∧
    u64_max_representable_digits 16 = 16 := by
  have h := mrd_pow_le b h2 h36
  exact ⟨⟨h.1, h.2.1⟩, by decide, by decide, by decide, by decide⟩

/-- Witness for C9 at base 10. -/
theorem C9_witness :
    (10 ^ u64_max_representable_digits 10 ≤ 2 ^ 64 ∧
      2 ^ 64 < 10 ^ (u64_max_representable_digits 10 + 1)) ∧
    u64_max_representable_digits 2 = 64 ∧
    u64_max_representable_digits 8 = 21 ∧
    u64_max_representable_digits 10 = 19 ∧
    u64_max_representable_digits 16 = 16 :=
  C9_u64_max_representable_digits 10 (by decide) (by decide)

/-! ## Claim C6 -/

/-- C6 counterexample: base 8 is a power of two, yet `u64_max_power 8` is
`2 ^ 63`, not the sentinel 0 — the claim's "sentinel exactly for
power-of-two bases" fails at `b = 8`. -/
theorem C6_counterexample :
    8 = 2 ^ 3 ∧ 8 &&& (8 - 1) = 0 ∧ u64_max_power 8 = 2 ^ 63 ∧
      u64_max_power 8 ≠ 0 := by
  decide

set_option maxRecDepth 4000 in
/-- C6 amended: for every base `b` in 2..36, `u64_max_power b` equals
`b ^ u64_max_representable_digits b` whenever that power is below `2 ^ 64`,
and equals the sentinel 0 exactly when that power is exactly `2 ^ 64`,
which happens precisely for bases 2, 4 and 16. -/
theorem C6_u64_max_power (b : Nat) (h2 : 2 ≤ b) (h36 : b ≤ 36) :
    (b ^ u64_max_representable_digits b < 2 ^ 64 →
      u64_max_power b = b ^ u64_max_representable_digits b) ∧
    (u64_max_power b = 0 ↔ b ^ u64_max_representable_digits b = 2 ^ 64) ∧
    (u64_max_power b = 0 ↔ b = 2 ∨ b = 4 ∨ b = 16) := by
  revert h2 h36
  revert b
  decide

/-- Witness for C6 at base 10. -/
theorem C6_witness :
    (10 ^ u64_max_representable_digits 10 < 2 ^ 64 →
      u64_max_power 10 = 10 ^ u64_max_representable_digits 10) ∧
    (u64_max_power 10 = 0 ↔ 10 ^ u64_max_representable_digits 10 = 2 ^ 64) ∧
    (u64_max_power 10 = 0 ↔ 10 = 2 ∨ 10 = 4 ∨ 10 = 16) :=
  C6_u64_max_power 10 (by decide) (by decide)

/-! ## Claim C3 -/

set_option maxRecDepth 40000 in
/-- C3: the digit string of `10 ^ 57` (a `1` followed by 57 zeros) has a
mathematical value at least `2 ^ 128`, yet the unsigned 128-bit
`from_chars` reports success and stores the wrapped value
`10 ^ 57 % 2 ^ 128`: the running `factor` is multiplied by `max_pow`
without an overflow check (charconv_ext.hpp:266), so overflow detection has
false negatives. -/
theorem C3_overflow_missed :
    listVal 10 ('1' :: List.replicate 57 '0') = 10 ^ 57 ∧
    2 ^ 128 ≤ 10 ^ 57 ∧
    from_chars_u128 ('1' :: List.replicate 57 '0') 10 =
      ⟨58, .ok, some (10 ^ 57 % 2 ^ 128)⟩ ∧
    10 ^ 57 % 2 ^ 128 ≠ 10 ^ 57 := by
  decide

/-! ## Claim C2 -/

/-- C2: formatting `2 ^ 64` in base 8 into a buffer of 2 characters makes
`to_chars` write at offsets up to 21 — far beyond the buffer — and return
success with an end pointer of 22 instead of reporting
`errc::value_too_large`: the zero-padding `ranges::copy`/`fill_n` calls
(charconv_ext.hpp:371-372) are not bounds-checked. -/
theorem C2_buffer_overrun :
    (to_chars_u128 8 130 (fun _ => ' ') 0 2 (2 ^ 64)).ec = .ok ∧
    (to_chars_u128 8 130 (fun _ => ' ') 0 2 (2 ^ 64)).ptr = 22 ∧
    (to_chars_u128 8 130 (fun _ => ' ') 0 2 (2 ^ 64)).writes.contains 21 =
      true := by
  decide

/-! ## Claim C10 -/

/-- C10 counterexample: parsing the single non-digit character `x` in base
10 fails with `invalid_argument`, yet the out-parameter is assigned (the
arbitrary-base loop stores the partial accumulator before inspecting the
chunk error, charconv_ext.hpp:263). -/
theorem C10_counterexample :
    from_chars_u128 ['x'] 10 = ⟨0, .invalid_argument, some 0⟩ ∧
    Errc.invalid_argument ≠ Errc.ok := by
  decide

/-- C10 amended: the unsigned 128-bit `from_chars` never assigns the
out-parameter on `result_out_of_range` and always assigns it on success;
on `invalid_argument` it leaves the out-parameter untouched when the base
is a power of two or the span is empty, but assigns it (with the partial
accumulator) when the base is not a power of two and the span is
non-empty. -/
theorem C10_out_assignment (s : List Char) (b : Nat) (h2 : 2 ≤ b)
    (h36 : b ≤ 36) :
    ((from_chars_u128 s b).ec = .result_out_of_range →
      (from_chars_u128 s b).out = none) ∧
    ((from_chars_u128 s b).ec = .ok → (from_chars_u128 s b).out ≠ none) ∧
    ((from_chars_u128 s b).ec = .invalid_argument →
      if b &&& (b - 1) = 0 ∨ s.length = 0 then (from_chars_u128 s b).out = none
      else (from_chars_u128 s b).out ≠ none) := by
  simp only [from_chars_u128]
  split
  · rename_i hlen
    simp [hlen]
  · rename_i hlen
    split
    · rename_i hpow
      have h := fc_pow2_loop_out s b (pattern_length s b)
        (u64_max_representable_digits b)
        (countr_zero_u64 (u64_max_power b)) (s.length + 1)
        (pattern_length s b) 0 0
      refine ⟨fun hec => ?_, fun hec => ?_, fun hec => ?_⟩
      · rw [← Option.not_isSome_iff_eq_none]
        intro hs
        rw [h.mp hs] at hec
        exact absurd hec (by decide)
      · intro hn
        have hs := h.mpr hec
        rw [hn] at hs
        exact absurd hs (by decide)
      · rw [if_pos (Or.inl hpow), ← Option.not_isSome_iff_eq_none]
        intro hs
        rw [h.mp hs] at hec
        exact absurd hec (by decide)
    · rename_i hpow
      have h := fc_arb_loop_out h2 h36 s (pattern_length s b)
        (u64_max_power b) (s.length + 1) (pattern_length s b) 0 1
      refine ⟨fun hec => ?_, fun hec => ?_, fun hec => ?_⟩
      · rw [← Option.not_isSome_iff_eq_none]
        intro hs
        rcases h.mp hs with hc | hc <;> rw [hc] at hec <;>
          exact absurd hec (by decide)
      · intro hn
        have hs := h.mpr (Or.inl hec)
        rw [hn] at hs
        exact absurd hs (by decide)
      · rw [if_neg (by simp [hpow, hlen])]
        intro hn
        have hs := h.mpr (Or.inr hec)
        rw [hn] at hs
        exact absurd hs (by decide)

/-- Witness for C10 on the span `1x` in base 10. -/
theorem C10_witness :
    ((from_chars_u128 ['1', 'x'] 10).ec = .result_out_of_range →
      (from_chars_u128 ['1', 'x'] 10).out = none) ∧
    ((from_chars_u128 ['1', 'x'] 10).ec = .ok →
      (from_chars_u128 ['1', 'x'] 10).out ≠ none) ∧
    ((from_chars_u128 ['1', 'x'] 10).ec = .invalid_argument →
      if 10 &&& (10 - 1) = 0 ∨ (['1', 'x'] : List Char).length = 0 then
        (from_chars_u128 ['1', 'x'] 10).out = none
      else (from_chars_u128 ['1', 'x'] 10).out ≠ none) :=
  C10_out_assignment ['1', 'x'] 10 (by decide) (by decide)

/-! ## Claim C1 -/

set_option maxRecDepth 200000 in
/-- C1: round-trip. For every base 2..36: formatting any `uint128_t` into a
sufficiently large buffer succeeds and the unsigned `from_chars` parses the
produced characters back to exactly that value, consuming the whole output
(returned pointer = end of the written output); likewise for `int128_t` over
the full range `[-2^127, 2^127)` with the signed overloads; in particular
the signed format of `-2^127` in base 10 is the 40-character string
`"-170141183460469231731687303715884105728"`, which parses back to `-2^127`
with no overflow. -/
theorem C1_round_trip :
    (∀ b x (mem : Nat → Char) space, 2 ≤ b → b ≤ 36 → x < 2 ^ 128 →
      128 ≤ space →
      ∃ r : TCResult, to_chars_u128 b 130 mem 0 space x = r ∧ r.ec = .ok ∧
        from_chars_u128 (readList r.mem 0 r.ptr) b =
          ⟨r.ptr, .ok, some x⟩) ∧
    (∀ b (x : Int) (mem : Nat → Char) space, 2 ≤ b → b ≤ 36 →
      -(2 ^ 127) ≤ x → x < 2 ^ 127 → 129 ≤ space →
      ∃ r : TCResult, to_chars_i128 mem 0 space x b = r ∧ r.ec = .ok ∧
        from_chars_i128 (readList r.mem 0 r.ptr) b =
          ⟨r.ptr, .ok, some x⟩) ∧
    (∃ r : TCResult,
      to_chars_i128 (fun _ => ' ') 0 64 (-(2 ^ 127)) 10 = r ∧
      r.ec = .ok ∧ r.ptr = 40 ∧
      readList r.mem 0 40 =
        "-170141183460469231731687303715884105728".toList ∧
      from_chars_i128 "-170141183460469231731687303715884105728".toList 10 =
        ⟨40, .ok, some (-(2 ^ 127))⟩) := by
  refine ⟨?_, ?_, ⟨_, rfl, by decide, by decide, by decide, by decide⟩⟩
  · intro b x mem space h2 h36 hx hsp
    obtain ⟨r, hr, hec, _, hlo, hhi, hvalid, hval, hzero, hpos⟩ :=
      to_chars_u128_spec h2 h36 129 x mem 0 space hx
        (lt_of_lt_of_le hx (Nat.pow_le_pow_right (by omega) (by norm_num)))
        (by omega)
    simp only [Nat.sub_zero] at hvalid hval hzero hpos
    norm_num at hr
    have hrl := readList_length r.mem 0 r.ptr
    have hne : readList r.mem 0 r.ptr ≠ [] := by
      intro hnil
      rw [hnil] at hrl
      simp at hrl
      omega
    have hlen3 : b &&& (b - 1) = 0 →
        (readList r.mem 0 r.ptr).length ≤
          3 * u64_max_representable_digits b := by
      rw [hrl]
      refine readback_len3 h2 h36 hx ?_ ?_
      · intro h0
        have hz := hzero h0
        rw [hz] at hrl
        simpa using hrl.symm
      · intro h1
        exact (hpos h1).2
    have he := from_chars_u128_exact h2 h36 hne hvalid
      (by rw [hval]; exact hx) hlen3
    rw [hrl, hval] at he
    exact ⟨r, hr, hec, he⟩
  · intro b x mem space h2 h36 hxlo hxhi hsp
    by_cases hx0 : 0 ≤ x
    · obtain ⟨r, hr, hec, _, hlo, hhi, hvalid, hval, hzero, hpos⟩ :=
        to_chars_u128_spec h2 h36 129 x.toNat mem 0 space (by omega)
          (by
            calc x.toNat < 2 ^ 128 := by omega
              _ ≤ 2 ^ (64 + 58 * 129) := Nat.pow_le_pow_right (by omega)
                (by norm_num))
          (by omega)
      simp only [Nat.sub_zero] at hvalid hval hzero hpos
      norm_num at hr
      have hrl := readList_length r.mem 0 r.ptr
      have hne : readList r.mem 0 r.ptr ≠ [] := by
        intro hnil
        rw [hnil] at hrl
        simp at hrl
        omega
      have hlen3 : b &&& (b - 1) = 0 →
          (readList r.mem 0 r.ptr).length ≤
            3 * u64_max_representable_digits b := by
        rw [hrl]
        refine @readback_len3 b h2 h36 x.toNat r.ptr (by omega) ?_ ?_
        · intro h0
          have hz := hzero h0
          rw [hz] at hrl
          simpa using hrl.symm
        · intro h1
          exact (hpos h1).2
      have he := from_chars_i128_nonneg h2 h36 hne hvalid hval
        (by omega) hlen3
      rw [hrl, Int.toNat_of_nonneg hx0] at he
      refine ⟨r, ?_, hec, he⟩
      rw [to_chars_i128, if_pos hx0]
      exact hr
    · obtain ⟨r, hr, hec, _, ds, hds, hptr, hds1, hds128, hdsvalid,
        hdsval, hdshead, hdspow⟩ :=
        to_chars_i128_neg_spec h2 h36 x mem 0 space hxlo (by omega)
          (by omega)
      simp only [Nat.sub_zero] at hds
      refine ⟨r, hr, hec, ?_⟩
      rw [hds]
      have he := from_chars_i128_neg h2 h36
        ((List.length_pos).mp hds1) hdsvalid hdsval (by omega) (by omega)
        (fun hpw => pow2_len_le h2 h36 hpw hdspow (by omega))
      rw [he, show (1 + ds.length : Nat) = r.ptr from by omega,
        show (-(x.natAbs : Int)) = x from by omega]
/-- Witness for C1: the unsigned round trip at value 1234 in base 10. -/
theorem C1_witness :
    ∃ r : TCResult, to_chars_u128 10 130 (fun _ => ' ') 0 128 1234 = r ∧
      r.ec = .ok ∧
      from_chars_u128 (readList r.mem 0 r.ptr) 10 =
        ⟨r.ptr, .ok, some 1234⟩ :=
  C1_round_trip.1 10 1234 (fun _ => ' ') 128 (by norm_num) (by norm_num)
    (by norm_num) (by norm_num)

/-! ## Claim C8 -/

/-- C8: minimality. For every base 2..36, a successful `to_chars` into a
sufficiently large buffer emits no superfluous leading zero: the first digit
character of the output is not `'0'` unless the value is zero, in which case
the whole output is the single character `"0"`; for negative signed values
the character after the leading `'-'` is not `'0'`. -/

theorem C8_minimality :
    (∀ b x (mem : Nat → Char) pos space, 2 ≤ b → b ≤ 36 → x < 2 ^ 128 →
      pos + 128 ≤ space →
      ∃ r : TCResult, to_chars_u128 b 130 mem pos space x = r ∧
        r.ec = .ok ∧
        (x = 0 → readList r.mem pos (r.ptr - pos) = ['0'] ∧
          r.ptr = pos + 1) ∧
        (1 ≤ x → ∃ c0 t0, readList r.mem pos (r.ptr - pos) = c0 :: t0 ∧
          c0 ≠ '0')) ∧
    (∀ b (x : Int) (mem : Nat → Char) pos space, 2 ≤ b → b ≤ 36 →
      -(2 ^ 127) ≤ x → x < 2 ^ 127 → pos + 129 ≤ space →
      ∃ r : TCResult, to_chars_i128 mem pos space x b = r ∧ r.ec = .ok ∧
        (x = 0 → readList r.mem pos (r.ptr - pos) = ['0'] ∧
          r.ptr = pos + 1) ∧
        (1 ≤ x → ∃ c0 t0, readList r.mem pos (r.ptr - pos) = c0 :: t0 ∧
          c0 ≠ '0') ∧
        (x < 0 → ∃ c0 t0, readList r.mem pos (r.ptr - pos) =
          '-' :: c0 :: t0 ∧ c0 ≠ '0')) := by
  constructor
  · intro b x mem pos space h2 h36 hx hsp
    obtain ⟨r, hr, hec, _, hlo, hhi, _, _, hzero, hpos⟩ :=
      to_chars_u128_spec h2 h36 129 x mem pos space hx
        (lt_of_lt_of_le hx (Nat.pow_le_pow_right (by omega) (by norm_num)))
        hsp
    norm_num at hr
    refine ⟨r, hr, hec, ?_, fun h1 => (hpos h1).1⟩
    intro h0
    refine ⟨hzero h0, ?_⟩
    have hrl := readList_length r.mem pos (r.ptr - pos)
    rw [hzero h0] at hrl
    simp at hrl
    omega
  · intro b x mem pos space h2 h36 hxlo hxhi hsp
    by_cases hx0 : 0 ≤ x
    · obtain ⟨r, hr, hec, _, hlo, hhi, _, _, hzero, hpos⟩ :=
        to_chars_u128_spec h2 h36 129 x.toNat mem pos space (by omega)
          (by
            calc x.toNat < 2 ^ 128 := by omega
              _ ≤ 2 ^ (64 + 58 * 129) := Nat.pow_le_pow_right (by omega)
                (by norm_num))
          (by omega)
      norm_num at hr
      refine ⟨r, ?_, hec, ?_, ?_, fun hneg => absurd hneg (by omega)⟩
      · rw [to_chars_i128, if_pos hx0]
        exact hr
      · intro h0
        have h0' : x.toNat = 0 := by omega
        refine ⟨hzero h0', ?_⟩
        have hrl := readList_length r.mem pos (r.ptr - pos)
        rw [hzero h0'] at hrl
        simp at hrl
        omega
      · intro h1
        exact (hpos (by omega)).1
    · obtain ⟨r, hr, hec, _, ds, hds, hptr, hds1, _, _, _, hdshead, _⟩ :=
        to_chars_i128_neg_spec h2 h36 x mem pos space hxlo (by omega)
          (by omega)
      obtain ⟨c0, t0, hdseq, hc0⟩ := hdshead
      refine ⟨r, hr, hec, fun h0 => absurd h0 (by omega),
        fun h1 => absurd h1 (by omega), fun _ => ⟨c0, t0, ?_, hc0⟩⟩
      rw [hds, hdseq]

/-- Witness for C8: value 255 in base 16 and value -255 in base 10. -/
theorem C8_witness :
    (∃ r : TCResult, to_chars_u128 16 130 (fun _ => ' ') 0 128 255 = r ∧
      r.ec = .ok ∧
      ((255 : Nat) = 0 → readList r.mem 0 (r.ptr - 0) = ['0'] ∧
        r.ptr = 0 + 1) ∧
      ((1 : Nat) ≤ 255 → ∃ c0 t0,
        readList r.mem 0 (r.ptr - 0) = c0 :: t0 ∧ c0 ≠ '0')) ∧
    (∃ r : TCResult,
      to_chars_i128 (fun _ => ' ') 0 130 (-255) 10 = r ∧ r.ec = .ok ∧
      ((-255 : Int) = 0 → readList r.mem 0 (r.ptr - 0) = ['0'] ∧
        r.ptr = 0 + 1) ∧
      ((1 : Int) ≤ -255 → ∃ c0 t0,
        readList r.mem 0 (r.ptr - 0) = c0 :: t0 ∧ c0 ≠ '0') ∧
      ((-255 : Int) < 0 → ∃ c0 t0,
        readList r.mem 0 (r.ptr - 0) = '-' :: c0 :: t0 ∧ c0 ≠ '0')) :=
  ⟨C8_minimality.1 16 255 (fun _ => ' ') 0 128 (by norm_num) (by norm_num)
    (by norm_num) (by norm_num),
   C8_minimality.2 10 (-255) (fun _ => ' ') 0 130 (by norm_num)
    (by norm_num) (by norm_num) (by norm_num) (by norm_num)⟩

/-- The `N`-bit two's-complement cast is the identity exactly on the
`N`-bit signed range. -/
theorem toIntN_eq_self_iff {N : Nat} (hN : 1 ≤ N) (v : Int) :
    toIntN N v = v ↔ -(2 ^ (N - 1)) ≤ v ∧ v < 2 ^ (N - 1) := by
  have h2N : (2 : Int) ^ N = 2 ^ (N - 1) * 2 := by
    rw [← pow_succ]
    congr 1
    omega
  have hPpos : (0 : Int) < 2 ^ (N - 1) := by positivity
  have hNpos : (0 : Int) < 2 ^ N := by positivity
  have hmn : 0 ≤ v % 2 ^ N := Int.emod_nonneg v (by omega)
  have hml : v % 2 ^ N < 2 ^ N := Int.emod_lt_of_pos v hNpos
  simp only [toIntN]
  constructor
  · intro h
    by_cases hu : v % 2 ^ N < 2 ^ (N - 1)
    · rw [if_pos hu] at h
      omega
    · rw [if_neg hu] at h
      omega
  · rintro ⟨h1, h2⟩
    rcases le_or_lt 0 v with hv0 | hv0
    · have he : v % 2 ^ N = v := Int.emod_eq_of_lt hv0 (by omega)
      rw [he, if_pos h2]
    · have hadd : v % 2 ^ N = v + 2 ^ N := by
        have hh : (v + 2 ^ N * 1) % 2 ^ N = v % 2 ^ N :=
          Int.add_mul_emod_self_left v (2 ^ N) 1
        rw [mul_one] at hh
        rw [← hh]
        exact Int.emod_eq_of_lt (by omega) (by omega)
      rw [hadd, if_neg (by omega)]
      omega
/-! ## Claim C7 -/

/-- C7: narrowing check. For every width `N` (1..128 via the carrier
dispatch), base, and span, `from_chars` for `bit_uint<N>` / `bit_int<N>`
parses into the carrier (the standard library below 65 bits, this library's
128-bit parse otherwise); when the carrier parse succeeds, the result is the
carrier result if the value is representable in `N` bits, and
`errc::result_out_of_range` with the same pointer if it is not; when the
carrier parse fails, its error code and pointer are returned unchanged. -/
theorem C7_narrowing :
    (∀ N (s : List Char) (b : Nat), 1 ≤ N →
      ∀ r : FCResult,
        (if uint_least_width N = 128 then from_chars_u128 s b
         else
           ⟨(std_from_chars_uint (uint_least_width N) s b).ptr,
             (std_from_chars_uint (uint_least_width N) s b).ec,
             if (std_from_chars_uint (uint_least_width N) s b).ec = .ok then
               some (std_from_chars_uint (uint_least_width N) s b).val
             else none⟩) = r →
        (from_chars_bit_uint N s b).ptr = r.ptr ∧
        (r.ec ≠ .ok → (from_chars_bit_uint N s b).ec = r.ec) ∧
        (r.ec = .ok →
          (r.out.getD 0 < 2 ^ N →
            from_chars_bit_uint N s b = ⟨r.ptr, .ok, some (r.out.getD 0)⟩) ∧
          (2 ^ N ≤ r.out.getD 0 →
            from_chars_bit_uint N s b =
              ⟨r.ptr, .result_out_of_range,
                some (r.out.getD 0 % 2 ^ N)⟩))) ∧
    (∀ N (s : List Char) (b : Nat), 1 ≤ N →
      ∀ r : FCIResult,
        (if uint_least_width N = 128 then from_chars_i128 s b
         else
           ⟨(std_from_chars_int (uint_least_width N) s b).ptr,
             (std_from_chars_int (uint_least_width N) s b).ec,
             if (std_from_chars_int (uint_least_width N) s b).ec = .ok then
               some (std_from_chars_int (uint_least_width N) s b).val
             else none⟩) = r →
        (from_chars_bit_int N s b).ptr = r.ptr ∧
        (r.ec ≠ .ok → (from_chars_bit_int N s b).ec = r.ec) ∧
        (r.ec = .ok →
          (-(2 ^ (N - 1)) ≤ r.out.getD 0 ∧ r.out.getD 0 < 2 ^ (N - 1) →
            from_chars_bit_int N s b = ⟨r.ptr, .ok, some (r.out.getD 0)⟩) ∧
          (¬(-(2 ^ (N - 1)) ≤ r.out.getD 0 ∧
              r.out.getD 0 < 2 ^ (N - 1)) →
            (from_chars_bit_int N s b).ec = .result_out_of_range ∧
            (from_chars_bit_int N s b).ptr = r.ptr))) := by
  constructor
  · intro N s b hN1 r hr
    simp only [from_chars_bit_uint, hr]
    refine ⟨?_, ?_, ?_⟩
    · split
      · rfl
      · rfl
    · intro hne
      rw [if_neg (fun hC => hne hC.1)]
    · intro hok
      constructor
      · intro hlt
        have hxv : r.out.getD 0 % 2 ^ N = r.out.getD 0 :=
          Nat.mod_eq_of_lt hlt
        rw [if_neg (fun hC => hC.2 hxv), hok, hxv]
      · intro hge
        have hxl : r.out.getD 0 % 2 ^ N < 2 ^ N :=
          Nat.mod_lt _ (Nat.two_pow_pos N)
        rw [if_pos ⟨hok, by omega⟩]
  · intro N s b hN1 r hr
    simp only [from_chars_bit_int, hr]
    refine ⟨?_, ?_, ?_⟩
    · split
      · rfl
      · rfl
    · intro hne
      rw [if_neg (fun hC => hne hC.1)]
    · intro hok
      constructor
      · intro hin
        have hxv : toIntN N (r.out.getD 0) = r.out.getD 0 :=
          (toIntN_eq_self_iff hN1 _).mpr hin
        rw [if_neg (fun hC => hC.2 hxv), hok, hxv]
      · intro hnin
        have hxv : toIntN N (r.out.getD 0) ≠ r.out.getD 0 :=
          fun he => hnin ((toIntN_eq_self_iff hN1 _).mp he)
        rw [if_pos ⟨hok, hxv⟩]
        exact ⟨rfl, rfl⟩

/-- Witness for C7: parsing `"16"` into `bit_uint<4>` overflows the 4-bit
range though the 8-bit carrier parse succeeds. -/
theorem C7_witness :
    from_chars_bit_uint 4 ['1', '6'] 10 =
      ⟨2, .result_out_of_range, some 0⟩ := by
  have h := (C7_narrowing.1 4 ['1', '6'] 10 (by norm_num)
    ⟨2, .ok, some 16⟩ (by decide)).2.2 rfl
  have h2 := h.2 (by norm_num)
  rw [h2]
  decide

end CharconvExt
